import Mathlib

/-!
# Verification of the Kando angular layout engine

Shallow embedding of the pure layout functions of `src/math` (item-angle
assignment, drag-and-drop adapter, wedge computation, drop-index resolution)
and proofs of the specification claims about them.

JavaScript numbers are modelled by exact rationals `ℚ`; the JavaScript
remainder operator `%` (truncated division remainder) is modelled by `jsMod`.
A menu item is modelled by its only relevant field: the optional `angle`
property, so an item is an `Option ℚ`.  A JavaScript array filled by index
assignment is modelled by a `List (Option ℚ)` of the target length whose
entries start out `none` (a JS hole) and become `some a` when assigned.
-/

/- Rational arithmetic must evaluate inside `decide` when claims are checked
on concrete menus; the batteries definitions are only sealed for performance
reasons, so unsealing them is harmless. -/
set_option allowUnsafeReducibility true in
attribute [semireducible] Rat.add Rat.mul Rat.sub Rat.inv Rat.ofScientific

/-- The angle of a menu item for layout purposes: `some a` when the item has
an `angle` property with value `a`, `none` otherwise. -/
abbrev Item := Option ℚ

/-- Truncation toward zero, as used by the JavaScript `%` operator. -/
def jsTrunc (q : ℚ) : ℤ := if q < 0 then ⌈q⌉ else ⌊q⌋

/-- The JavaScript remainder `a % b`: `a - b * trunc (a / b)`. -/
def jsMod (a b : ℚ) : ℚ := a - b * (jsTrunc (a / b) : ℚ)

/-! ## The Angle Assigner: `computeItemAngles`

The stages below mirror the blocks of the source function in order:
collecting the fixed angles, the parent-collision nudge, the normalization
into `[0, 360)`, the monotonic pruning, the synthesis of a first angle when
no fixed angle remains, and the wedge-filling main loop. -/

/-- `items.forEach(...)` collecting `{angle, index}` for every item whose
`angle` property is present and `≥ 0`; the counter is the running index. -/
def collectFixedAnglesAux : ℕ → List Item → List (ℚ × ℕ)
  | _, [] => []
  | i, none :: rest => collectFixedAnglesAux (i + 1) rest
  | i, some a :: rest =>
      if 0 ≤ a then (a, i) :: collectFixedAnglesAux (i + 1) rest
      else collectFixedAnglesAux (i + 1) rest

/-- All fixed angles of the item list, with their item indices. -/
def collectFixedAngles (items : List Item) : List (ℚ × ℕ) :=
  collectFixedAnglesAux 0 items

/-- The parent-collision nudge: a fixed angle within `0.0001` of the parent
angle is moved by `+0.1`. -/
def nudgeFixedAngles (parentAngle : Option ℚ) (fas : List (ℚ × ℕ)) :
    List (ℚ × ℕ) :=
  match parentAngle with
  | none => fas
  | some p => fas.map (fun ai => if |ai.1 - p| < 1 / 10000 then (ai.1 + 1 / 10, ai.2) else ai)

/-- Normalization of every fixed angle by `% 360`. -/
def normalizeFixedAngles (fas : List (ℚ × ℕ)) : List (ℚ × ℕ) :=
  fas.map (fun ai => (jsMod ai.1 360, ai.2))

/-- One pass of the monotonic pruning, with `c` the most recently kept
entry: an entry smaller than `c` is spliced out, otherwise it is kept and
becomes the new comparison point.  This renders the in-place splice loop of
the source (which repeatedly deletes `fixedAngles[i+1]` while it is smaller
than `fixedAngles[i]`) as a single forward pass. -/
def pruneFixedAnglesGo : ℚ × ℕ → List (ℚ × ℕ) → List (ℚ × ℕ)
  | _, [] => []
  | c, y :: ys =>
      if c.1 > y.1 then pruneFixedAnglesGo c ys
      else y :: pruneFixedAnglesGo y ys

/-- The monotonic pruning of the fixed-angle list: the first entry is always
kept, later entries are dropped when smaller than the last kept entry. -/
def pruneFixedAngles : List (ℚ × ℕ) → List (ℚ × ℕ)
  | [] => []
  | x :: xs => x :: pruneFixedAnglesGo x xs

/-- The fixed-angle list as the main loop of `computeItemAngles` sees it:
collected, nudged away from the parent angle, normalized, and pruned. -/
def processedFixedAngles (items : List Item) (parentAngle : Option ℚ) :
    List (ℚ × ℕ) :=
  pruneFixedAngles (normalizeFixedAngles (nudgeFixedAngles parentAngle (collectFixedAngles items)))

/-- When no fixed angle exists and a parent angle is given: divide the circle
into `nItems + 1` wedges around the parent and pick, among the `nItems`
non-parent boundaries, the first one strictly closest to the top.  The fold
state is `(minAngleDiff, firstAngle)`, starting at `(360, 0)`. -/
def computeFirstAngle (nItems : ℕ) (p : ℚ) : ℚ :=
  ((List.range nItems).foldl
    (fun (st : ℚ × ℚ) i =>
      let angle := jsMod (p + (i + 1 : ℕ) * (360 / (nItems + 1 : ℚ))) 360
      let angleDiff := min angle (360 - angle)
      if angleDiff < st.1 then (angleDiff, jsMod (angle + 360) 360) else st)
    (360, 0)).2

/-- The inner `while (index != wedgeEndIndex)` loop of the main loop: walk
the indices cyclically, assigning `(wedgeBeginAngle + gap * count) % 360`,
and skip one extra gap increment at the parent crossing.  `fuel` bounds the
number of iterations; it is called with `fuel = n`, which always suffices to
reach `wedgeEndIndex`. -/
def assignWedgeItems (n wedgeEndIndex : ℕ) (wedgeBeginAngle wedgeItemGap : ℚ)
    (pa : ℚ) :
    ℕ → ℕ → ℕ → Bool → List (Option ℚ) → List (Option ℚ)
  | 0, _, _, _, angles => angles
  | fuel + 1, index, count, parentGapRequired, angles =>
      if index = wedgeEndIndex then angles
      else
        let itemAngle := wedgeBeginAngle + wedgeItemGap * count
        let skip := parentGapRequired && decide (itemAngle + wedgeItemGap / 2 - pa > 0)
        let count' := if skip then count + 1 else count
        let itemAngle' := wedgeBeginAngle + wedgeItemGap * count'
        assignWedgeItems n wedgeEndIndex wedgeBeginAngle wedgeItemGap pa
          fuel ((index + 1) % n) (count' + 1)
          (if skip then false else parentGapRequired)
          (angles.set index (some (jsMod itemAngle' 360)))

/-- One iteration of the main loop of `computeItemAngles`, for the wedge
between one fixed angle and the cyclically next one.  The state carries the
output array and the current value of the (mutated!) `parentAngle` variable:
the `+= 360` wrap correction applied to it persists across iterations in
the source. -/
def processWedge (n : ℕ) (st : List (Option ℚ) × Option ℚ)
    (pair : (ℚ × ℕ) × (ℚ × ℕ)) : List (Option ℚ) × Option ℚ :=
  let wedgeBeginIndex := pair.1.2
  let wedgeBeginAngle := pair.1.1
  let wedgeEndIndex := pair.2.2
  let angles := st.1.set wedgeBeginIndex (some wedgeBeginAngle)
  let wedgeEndAngle :=
    if pair.2.1 ≤ wedgeBeginAngle then pair.2.1 + 360 else pair.2.1
  let wedgeItemCount0 := (wedgeEndIndex + n - wedgeBeginIndex - 1) % n
  match st.2 with
  | none =>
      let wedgeItemGap := (wedgeEndAngle - wedgeBeginAngle) / (wedgeItemCount0 + 1)
      (assignWedgeItems n wedgeEndIndex wedgeBeginAngle wedgeItemGap 0
        n ((wedgeBeginIndex + 1) % n) 1 false angles, none)
  | some p =>
      let p' := if p < wedgeBeginAngle then p + 360 else p
      let parentInWedge := decide (p' > wedgeBeginAngle) && decide (p' < wedgeEndAngle)
      let wedgeItemCount := if parentInWedge then wedgeItemCount0 + 1 else wedgeItemCount0
      let wedgeItemGap := (wedgeEndAngle - wedgeBeginAngle) / (wedgeItemCount + 1)
      (assignWedgeItems n wedgeEndIndex wedgeBeginAngle wedgeItemGap p'
        n ((wedgeBeginIndex + 1) % n) 1 parentInWedge angles, some p')

/-- The cyclic pairs `(fixedAngles[i], fixedAngles[(i+1) % len])` iterated
by the main loop. -/
def cyclicPairs (l : List (ℚ × ℕ)) : List ((ℚ × ℕ) × (ℚ × ℕ)) :=
  (List.range l.length).map
    (fun m => (l.getD m default, l.getD ((m + 1) % l.length) default))

/-- The main loop of `computeItemAngles`: fold `processWedge` over the
cyclic anchor pairs, starting from the initial output array and the given
parent angle. -/
def computeItemAnglesCore (n : ℕ) (fixedAngles : List (ℚ × ℕ))
    (pa : Option ℚ) (itemAngles : List (Option ℚ)) : List (Option ℚ) :=
  ((cyclicPairs fixedAngles).foldl (processWedge n) (itemAngles, pa)).1

/-- `computeItemAngles`, the Angle Assigner: one angle per item, honoring
fixed angles and reserving space toward the parent angle.  Unassigned
output slots (which do not occur, see the count-preservation theorem) stay
`none`. -/
def computeItemAngles (items : List Item) (parentAngle : Option ℚ) :
    List (Option ℚ) :=
  if items.length = 0 then []
  else
    let fixedAngles := processedFixedAngles items parentAngle
    if fixedAngles.length = 0 then
      let firstAngle :=
        match parentAngle with
        | none => (0 : ℚ)
        | some p => computeFirstAngle items.length p
      computeItemAnglesCore items.length [(firstAngle, 0)] parentAngle
        ((List.replicate items.length (none : Option ℚ)).set 0 (some firstAngle))
    else
      computeItemAnglesCore items.length fixedAngles parentAngle
        (List.replicate items.length (none : Option ℚ))

/-- `computeItemAnglesDnD`: the drag-and-drop adapter.  When a drop index is
given, a placeholder item (no angle) is spliced in at that index, the angles
are computed on the augmented list, and the placeholder's angle is removed
from the result and reported separately as the drop angle. -/
def computeItemAnglesDnD (items : List Item) (parentAngle : Option ℚ)
    (dropIndex : Option ℕ) : List (Option ℚ) × Option ℚ :=
  let itemsCopy :=
    match dropIndex with
    | none => items
    | some d => items.take d ++ [none] ++ items.drop d
  let itemAngles := computeItemAngles itemsCopy parentAngle
  match dropIndex with
  | none => (itemAngles, none)
  | some d => (itemAngles.take d ++ itemAngles.drop (d + 1), (itemAngles.get? d).join)

/-! ## The Wedge Boundary Calculator: `computeItemWedges` -/

/-- An angular wedge `{start, end}` with `start < end`; the bounds may lie
outside `[0, 360)`. -/
structure Wedge where
  start : ℚ
  «end» : ℚ
  deriving DecidableEq, Repr

/-- The separator list: the midpoint of each pair of adjacent sorted angles,
the last one wrapping around by `+360`. -/
def computeSeparators (allAngles : List ℚ) : List ℚ :=
  (List.range allAngles.length).map
    (fun i =>
      if i = allAngles.length - 1 then (allAngles.getD i 0 + allAngles.getD 0 0 + 360) / 2
      else (allAngles.getD i 0 + allAngles.getD (i + 1) 0) / 2)

/-- `computeItemWedges`: one wedge per item angle, delimited by the
separators surrounding it.  The sort models `allAngles.sort((a, b) => a - b)`.
When `findIndex` fails (impossible for angles in `[0, 360)`, where the last
separator exceeds every angle; in JS the wedge fields would be `undefined`),
the wedge `{0, 0}` is returned. -/
def computeItemWedges (itemAngles : List ℚ) (parentAngle : Option ℚ) :
    List Wedge :=
  if itemAngles.length = 0 then []
  else if itemAngles.length = 1 ∧ parentAngle = none then [⟨0, 360⟩]
  else
    let allAngles :=
      (itemAngles ++ (match parentAngle with | none => [] | some p => [p])).insertionSort (· ≤ ·)
    let separators := computeSeparators allAngles
    itemAngles.map (fun a =>
      match separators.findIdx? (fun s => decide (s > a)) with
      | some wedgeIndex =>
          { start :=
              if wedgeIndex = 0 then separators.getD (separators.length - 1) 0 - 360
              else separators.getD (wedgeIndex - 1) 0
            «end» := separators.getD wedgeIndex 0 }
      | none => ⟨0, 0⟩)

/-! ## The Drop Index Resolver: `computeDropIndex` -/

/-- `isAngleBetween`: whether `angle` (or `angle ± 360`) lies in
`(start, end]`. -/
def isAngleBetween (angle s e : ℚ) : Bool :=
  (decide (angle > s) && decide (angle ≤ e)) ||
  (decide (angle - 360 > s) && decide (angle - 360 ≤ e)) ||
  (decide (angle + 360 > s) && decide (angle + 360 ≤ e))

/-- The body of the drop-zone loop of `computeDropIndex`: whether the drop
zone centered on item `i` (spanning halfway to its cyclic predecessor and
successor, with wraparound correction) contains the drag angle. -/
def dropZoneMatches (itemAngles : List ℚ) (dragAngle : ℚ) (i : ℕ) : Bool :=
  let n := itemAngles.length
  let wedgeStart := itemAngles.getD ((i + n - 1) % n) 0
  let wedgeCenter0 := itemAngles.getD i 0
  let wedgeEnd0 := itemAngles.getD ((i + 1) % n) 0
  let wedgeCenter := if wedgeCenter0 < wedgeStart then wedgeCenter0 + 360 else wedgeCenter0
  let wedgeEnd := if wedgeEnd0 < wedgeCenter then wedgeEnd0 + 360 else wedgeEnd0
  let dropZoneStart := wedgeCenter - (wedgeCenter - wedgeStart) / 2
  let dropZoneEnd := wedgeCenter + (wedgeEnd - wedgeCenter) / 2
  isAngleBetween dragAngle dropZoneStart dropZoneEnd

/-- `computeDropIndex`: the insertion slot indicated by a drag angle.  The
fall-through past the loop (which returns no value in the source) is
modelled by `none`. -/
def computeDropIndex (itemAngles : List ℚ) (dragAngle : ℚ) : Option ℕ :=
  if itemAngles.length = 0 then some 0
  else if itemAngles.length = 1 then
    some (if dragAngle - itemAngles.getD 0 0 < 90 ∨ dragAngle - itemAngles.getD 0 0 > 270 then 0 else 1)
  else
    (List.range itemAngles.length).find? (dropZoneMatches itemAngles dragAngle)

/-- The mathematical (floored) remainder into `[0, 360)`, used to state
claims that speak about angular distances modulo 360. -/
def norm360 (x : ℚ) : ℚ := x - 360 * (⌊x / 360⌋ : ℤ)

/-- The angular distance between two angles: the smaller of the two ways
around the circle. -/
def angularDistance (p a : ℚ) : ℚ :=
  min (norm360 (p - a)) (360 - norm360 (p - a))

/-- Membership of direction `x` in a wedge, wraparound-normalized: `x` (or
`x ± 360`) lies in `(start, end]`. -/
def wedgeContains (w : Wedge) (x : ℚ) : Prop :=
  (w.start < x ∧ x ≤ w.«end») ∨
  (w.start < x - 360 ∧ x - 360 ≤ w.«end») ∨
  (w.start < x + 360 ∧ x + 360 ≤ w.«end»)

instance (w : Wedge) (x : ℚ) : Decidable (wedgeContains w x) := by
  unfold wedgeContains; infer_instance

/-- Strict (interior) membership of direction `x` in a wedge, wraparound
normalized. -/
def wedgeContainsStrict (w : Wedge) (x : ℚ) : Prop :=
  (w.start < x ∧ x < w.«end») ∨
  (w.start < x - 360 ∧ x - 360 < w.«end») ∨
  (w.start < x + 360 ∧ x + 360 < w.«end»)

instance (w : Wedge) (x : ℚ) : Decidable (wedgeContainsStrict w x) := by
  unfold wedgeContainsStrict; infer_instance

/-- Cyclic forward distance from `s` to `j` when walking `index := (index+1) % n`:
the number of steps after which the walk starting at `s` reaches `j`. -/
def cdist (n s j : ℕ) : ℕ := (j + n - s) % n

/-- All assigned entries of an output array lie in `[0, 360)`. -/
def anglesInRange (A : List (Option ℚ)) : Prop :=
  ∀ (j : ℕ) (v : ℚ), A[j]? = some (some v) → 0 ≤ v ∧ v < 360

/-- The main loop body as a fold step over the position `m` in the
fixed-angle list: process the wedge between anchor `m` and anchor
`(m+1) % len`. -/
def wedgeStep (n : ℕ) (A : List (ℚ × ℕ)) (st : List (Option ℚ) × Option ℚ)
    (m : ℕ) : List (Option ℚ) × Option ℚ :=
  processWedge n st (A.getD m default, A.getD ((m + 1) % A.length) default)

/-- The midpoint separators of a sorted angle list, as single values: entry
`i < length - 1` is the midpoint of angles `i` and `i+1`; the last entry is
the wrap-around midpoint of the last and first angle.  `computeSeparators`
tabulates exactly these values. -/
def midAngles (l : List ℚ) (i : ℕ) : ℚ :=
  if i = l.length - 1 then (l.getD i 0 + l.getD 0 0 + 360) / 2
  else (l.getD i 0 + l.getD (i + 1) 0) / 2

/-- The wedge boundaries of `computeItemWedges`, indexed by the rank of an
angle in the sorted list: boundary `0` is the wrap-around separator shifted
down a turn, boundary `t ≥ 1` is separator `t - 1`.  The wedge of the item
of rank `r` is the interval from boundary `r` to boundary `r + 1`. -/
def wedgeBound (s : List ℚ) (t : ℕ) : ℚ :=
  if t = 0 then midAngles s (s.length - 1) - 360 else midAngles s (t - 1)

/-! ## Basic lemmas about the JavaScript remainder -/

theorem jsTrunc_of_nonneg {q : ℚ} (h : 0 ≤ q) : jsTrunc q = ⌊q⌋ := by
  simp [jsTrunc, not_lt.mpr h]

theorem jsTrunc_of_neg {q : ℚ} (h : q < 0) : jsTrunc q = ⌈q⌉ := by
  simp [jsTrunc, h]

theorem jsMod_nonneg {a : ℚ} (h : 0 ≤ a) : 0 ≤ jsMod a 360 := by
  have hq : (0:ℚ) ≤ a / 360 := by positivity
  rw [jsMod, jsTrunc_of_nonneg hq]
  have := Int.floor_le (a / 360)
  nlinarith [this]

theorem jsMod_lt {a : ℚ} (h : 0 ≤ a) : jsMod a 360 < 360 := by
  have hq : (0:ℚ) ≤ a / 360 := by positivity
  rw [jsMod, jsTrunc_of_nonneg hq]
  have := Int.lt_floor_add_one (a / 360)
  nlinarith [this]

theorem jsMod_eq_self {a : ℚ} (h0 : 0 ≤ a) (h1 : a < 360) : jsMod a 360 = a := by
  have hq : (0:ℚ) ≤ a / 360 := by positivity
  rw [jsMod, jsTrunc_of_nonneg hq]
  have : ⌊a / 360⌋ = 0 := by
    rw [Int.floor_eq_zero_iff]
    exact Set.mem_Ico.mpr ⟨hq, by exact_mod_cast (div_lt_one (by norm_num : (0:ℚ) < 360)).mpr h1⟩
  rw [this]
  ring

theorem jsMod_gt_neg {a : ℚ} : -360 < jsMod a 360 := by
  rcases le_or_lt 0 a with h | h
  · linarith [jsMod_nonneg h]
  · have hq : a / 360 < 0 := by
      apply div_neg_of_neg_of_pos h (by norm_num)
    rw [jsMod, jsTrunc_of_neg hq]
    have := Int.ceil_lt_add_one (a / 360)
    nlinarith [this]

theorem jsMod_lt_general {a : ℚ} : jsMod a 360 < 360 := by
  rcases le_or_lt 0 a with h | h
  · exact jsMod_lt h
  · have hq : a / 360 < 0 := by
      apply div_neg_of_neg_of_pos h (by norm_num)
    rw [jsMod, jsTrunc_of_neg hq]
    have := Int.le_ceil (a / 360)
    nlinarith [this]

theorem norm360_eq_self {x : ℚ} (h0 : 0 ≤ x) (h1 : x < 360) : norm360 x = x := by
  rw [norm360]
  have : ⌊x / 360⌋ = 0 := by
    rw [Int.floor_eq_zero_iff]
    exact Set.mem_Ico.mpr ⟨by positivity, by exact_mod_cast (div_lt_one (by norm_num : (0:ℚ) < 360)).mpr h1⟩
  rw [this]
  ring

/-! ## Claim C5: the 3-item example with item 1 fixed at 45° -/

/-- Claim C5 (counterexample): for 3 items with item 1 fixed at 45° and no
parent, the claim asserts items 0 and 2 receive 202.5° and 337.5°; the code
actually assigns them 285° and 165° (even 120° spacing from the single
anchor at 45°). -/
theorem c5_claim_false :
    computeItemAngles [none, some 45, none] none = [some 285, some 45, some 165] ∧
    ¬ ((computeItemAngles [none, some 45, none] none).getD 0 none = some 202.5 ∧
       (computeItemAngles [none, some 45, none] none).getD 2 none = some 337.5) := by
  decide

/-- Claim C5 (amended): for 3 items where item 1 has fixed angle 45° and no
parent angle, `computeItemAngles` returns 45° for item 1 and assigns items 0
and 2 the angles 285° and 165° respectively (the two unfixed items are spread
at even 120° steps through the single full-circle wedge starting at 45°,
walking the indices cyclically from the anchor; order is preserved). -/
theorem c5_three_items_one_fixed :
    computeItemAngles [none, some 45, none] none = [some 285, some 45, some 165] := by
  decide

/-! ## Claim C8: 4 items, parent at 180°, no output angle equals 180° -/

/-- Claim C8: for 4 items without fixed angles and a parent angle of 180°,
`computeItemAngles` returns `[324°, 36°, 108°, 252°]`, and in particular no
item is placed on the exact parent direction 180°. -/
theorem c8_parent_direction_reserved :
    computeItemAngles [none, none, none, none] (some 180) =
      [some 324, some 36, some 108, some 252] ∧
    ∀ a ∈ computeItemAngles [none, none, none, none] (some 180), a ≠ some 180 := by
  decide

/-! ## Claim C9: the adapter without a drop index -/

/-- Claim C9: `computeItemAnglesDnD` without a drop index returns exactly the
angles of `computeItemAngles` on the same inputs, and reports no drop
angle. -/
theorem c9_dnd_without_drop_index (items : List Item) (parentAngle : Option ℚ) :
    computeItemAnglesDnD items parentAngle none =
      (computeItemAngles items parentAngle, none) := rfl

/-! ## Claim C6: the single-item drop-index rule -/

/-- Claim C6 (counterexample): at item angle 200° and pointer 10° the angular
distance is 170° (not below 90°), so the claim demands drop index 1, but the
code returns 0: the comparison `dragAngle - itemAngles[0] < 90` is done on
the raw difference, which is negative whenever the pointer angle is smaller
than the item angle. -/
theorem c6_claim_false :
    computeDropIndex [200] 10 = some 0 ∧
    angularDistance 10 200 = 170 ∧
    ¬ (angularDistance 10 200 < 90) ∧
    computeDropIndex [200] 10 ≠ some 1 := by
  decide

/-- Claim C6 (amended): for a single item angle `a ∈ [0, 360)` and a pointer
angle `p ∈ [0, 360)`, `computeDropIndex [a] p` returns 0 iff the raw
difference `p - a` is below 90 or above 270.  When `a ≤ p` this coincides
with the claimed modular-distance rule (0 iff the angular distance is below
90°, else 1); when `p < a` the raw difference is negative and the result is
always 0. -/
theorem c6_single_item_rule (a p : ℚ) (ha : 0 ≤ a ∧ a < 360)
    (hp : 0 ≤ p ∧ p < 360) :
    (a ≤ p → (computeDropIndex [a] p = some 0 ↔ angularDistance p a < 90)) ∧
    (p < a → computeDropIndex [a] p = some 0) := by
  have hbranch : computeDropIndex [a] p =
      some (if p - a < 90 ∨ p - a > 270 then 0 else 1) := rfl
  constructor
  · intro hle
    have hn : norm360 (p - a) = p - a :=
      norm360_eq_self (by linarith) (by linarith [ha.1, hp.2])
    rw [hbranch, angularDistance, hn]
    constructor
    · intro h
      have hcond : p - a < 90 ∨ p - a > 270 := by
        by_contra hc
        rw [if_neg hc] at h
        exact one_ne_zero (Option.some_injective ℕ h)
      rcases hcond with h1 | h1
      · exact min_lt_iff.mpr (Or.inl h1)
      · exact min_lt_iff.mpr (Or.inr (by linarith))
    · intro h
      rcases min_lt_iff.mp h with h1 | h1
      · simp [if_pos (Or.inl (by linarith : p - a < 90))]
      · simp [if_pos (Or.inr (by linarith : p - a > 270))]
  · intro hlt
    rw [hbranch, if_pos (Or.inl (by linarith : p - a < 90))]

/-- Claim C6 (witness): the amended rule evaluated at the concrete inputs of
the specification example (item at 200°, pointer at 10°). -/
theorem c6_single_item_rule_witness :
    computeDropIndex [200] 10 = some 0 :=
  (c6_single_item_rule 200 10 (by norm_num) (by norm_num)).2 (by norm_num)

/-! ## Claim C3 (counterexample part): wedge coverage fails with a parent -/

/-- Claim C3 (counterexample): with a parent angle, the wedges of
`computeItemWedges` do not cover the full circle: for the single item angle
0° and parent 90°, the only wedge is `(-135°, 45°]` and the direction 100°
(which lies in the parent's gap) is covered by no wedge. -/
theorem c3_claim_false :
    computeItemWedges [0] (some 90) = [⟨-135, 45⟩] ∧
    (0:ℚ) ≤ 100 ∧ (100:ℚ) < 360 ∧
    ∀ w ∈ computeItemWedges [0] (some 90), ¬ wedgeContains w 100 := by
  decide

/-! ## Claim C7 (counterexample part): the drag round-trip can fail -/

/-- Claim C7 (counterexample): the round-trip fails when the reported drop
angle collides with the parent angle.  Dropping at index 1 between fixed
angles 100° and 100.00024° with parent 100.00012° reports drop angle
100.00008°; re-running with a real item fixed at 100.00008° at index 1
nudges that angle to 100.10008° (it is within 0.0001° of the parent), so
the inserted item does not reproduce the drop angle. -/
theorem c7_claim_false :
    (computeItemAnglesDnD [some 100, some 100.00024] (some 100.00012) (some 1)).2 =
      some 100.00008 ∧
    (computeItemAngles
        ([some 100, some 100.00024].take 1 ++ [some 100.00008] ++
          [some 100, some 100.00024].drop 1)
        (some 100.00012)).getD 1 none = some 100.10008 ∧
    some (100.10008:ℚ) ≠ some (100.00008:ℚ) := by
  decide

/-! ## Lemmas about the cyclic distance -/

theorem cdist_closed {n s j : ℕ} (hs : s < n) (_hj : j < n) :
    cdist n s j = if s ≤ j then j - s else j + n - s := by
  rcases le_or_lt s j with h | h
  · have e : j + n - s = n + (j - s) := by omega
    rw [if_pos h, cdist, e, Nat.add_mod_left, Nat.mod_eq_of_lt (by omega)]
  · have e : j + n - s < n := by omega
    rw [if_neg (not_le.mpr h), cdist, Nat.mod_eq_of_lt e]

theorem cdist_lt {n s j : ℕ} (hn : 0 < n) : cdist n s j < n :=
  Nat.mod_lt _ hn

theorem cdist_eq_zero_iff {n s j : ℕ} (hs : s < n) (hj : j < n) :
    cdist n s j = 0 ↔ s = j := by
  rw [cdist_closed hs hj]
  split <;> omega

theorem succ_mod_eq {n s : ℕ} (hs : s < n) :
    (s + 1) % n = if s + 1 = n then 0 else s + 1 := by
  split
  · simp [*]
  · exact Nat.mod_eq_of_lt (by omega)

theorem cdist_step {n s j : ℕ} (hs : s < n) (hj : j < n) (hne : j ≠ s) :
    cdist n ((s + 1) % n) j + 1 = cdist n s j := by
  have hn : 0 < n := by omega
  rw [succ_mod_eq hs]
  split
  · rw [cdist_closed hn hj, cdist_closed hs hj]
    split <;> split <;> omega
  · rw [cdist_closed (by omega) hj, cdist_closed hs hj]
    split <;> split <;> omega

theorem cdist_step_self {n s : ℕ} (hs : s < n) :
    cdist n ((s + 1) % n) s = n - 1 := by
  have hn : 0 < n := by omega
  rw [succ_mod_eq hs]
  split
  · rw [cdist_closed (by omega) hs]
    split <;> omega
  · rw [cdist_closed (by omega) hs]
    split <;> omega

/-! ## Lemmas about the inner wedge-filling loop -/

theorem assignWedgeItems_length (n e : ℕ) (β γ pa : ℚ) :
    ∀ (fuel s count : ℕ) (pgr : Bool) (A : List (Option ℚ)),
      (assignWedgeItems n e β γ pa fuel s count pgr A).length = A.length := by
  intro fuel
  induction fuel with
  | zero => intro s count pgr A; rfl
  | succ fuel ih =>
      intro s count pgr A
      rw [assignWedgeItems]
      split
      · rfl
      · rw [ih, List.length_set]

theorem assignWedgeItems_frame (n e : ℕ) (he : e < n) (β γ pa : ℚ) :
    ∀ (fuel s count : ℕ) (pgr : Bool) (A : List (Option ℚ)) (j : ℕ),
      s < n →
      (n ≤ j ∨ ¬ cdist n s j < cdist n s e) →
      (assignWedgeItems n e β γ pa fuel s count pgr A)[j]? = A[j]? := by
  intro fuel
  induction fuel with
  | zero => intro s count pgr A j _ _; rfl
  | succ fuel ih =>
      intro s count pgr A j hs hcond
      rw [assignWedgeItems]
      split
      · rfl
      · rename_i hse
        have hs' : (s + 1) % n < n := Nat.mod_lt _ (by omega)
        have hnz : cdist n s e ≠ 0 := fun hh => hse ((cdist_eq_zero_iff hs he).mp hh)
        have hjs : j ≠ s := by
          by_cases hjn : j < n
          · rcases hcond with h | h
            · omega
            · intro hj
              apply h
              rw [hj, (cdist_eq_zero_iff hs hs).mpr rfl]
              omega
          · omega
        rw [ih _ _ _ _ _ hs', List.getElem?_set_ne (Ne.symm hjs)]
        by_cases hjn : j < n
        · right
          have h1 := cdist_step hs hjn hjs
          have h2 := cdist_step hs he (fun hh => hse hh.symm)
          rcases hcond with h | h
          · omega
          · omega
        · exact Or.inl (by omega)

theorem assignWedgeItems_covers (n e : ℕ) (he : e < n) (β γ pa : ℚ) :
    ∀ (fuel s count : ℕ) (pgr : Bool) (A : List (Option ℚ)) (j : ℕ),
      s < n → j < n → A.length = n →
      cdist n s e ≤ fuel →
      cdist n s j < cdist n s e →
      ∃ v : ℚ, (assignWedgeItems n e β γ pa fuel s count pgr A)[j]? = some (some v) := by
  intro fuel
  induction fuel with
  | zero =>
      intro s count pgr A j hs hj hA hfuel hcd
      omega
  | succ fuel ih =>
      intro s count pgr A j hs hj hA hfuel hcd
      have hse : s ≠ e := by
        intro hh
        rw [(cdist_eq_zero_iff hs he).mpr hh] at hcd
        omega
      rw [assignWedgeItems, if_neg hse]
      have hs' : (s + 1) % n < n := Nat.mod_lt _ (by omega)
      have hstepE := cdist_step hs he (fun hh => hse hh.symm)
      by_cases hjs : j = s
      · subst hjs
        have hframe : ∀ (count' : ℕ) (pgr' : Bool) (x : ℚ),
            ∃ v : ℚ, (assignWedgeItems n e β γ pa fuel ((j + 1) % n) count' pgr'
              (A.set j (some x)))[j]? = some (some v) := by
          intro count' pgr' x
          refine ⟨x, ?_⟩
          rw [assignWedgeItems_frame n e he β γ pa fuel _ _ _ _ j hs' ?_]
          · exact List.getElem?_set_eq (by omega)
          · right
            have hself := cdist_step_self hs
            have hlt := cdist_lt (n := n) (s := j) (j := e) (by omega : 0 < n)
            omega
        exact hframe _ _ _
      · have h1 := cdist_step hs hj hjs
        exact ih ((s + 1) % n) _ _ _ j hs' hj (by rw [List.length_set]; exact hA)
          (by omega) (by omega)

theorem assignWedgeItems_mono (n e : ℕ) (β γ pa : ℚ) :
    ∀ (fuel s count : ℕ) (pgr : Bool) (A : List (Option ℚ)) (j : ℕ) (v : ℚ),
      A[j]? = some (some v) →
      ∃ w : ℚ, (assignWedgeItems n e β γ pa fuel s count pgr A)[j]? = some (some w) := by
  intro fuel
  induction fuel with
  | zero => intro s count pgr A j v h; exact ⟨v, h⟩
  | succ fuel ih =>
      intro s count pgr A j v h
      rw [assignWedgeItems]
      split
      · exact ⟨v, h⟩
      · by_cases hjs : j = s
        · subst hjs
          have hlen : j < A.length := by
            by_contra hc
            rw [List.getElem?_eq_none (by omega)] at h
            exact Option.noConfusion h
          exact ih _ _ _ _ j _ (List.getElem?_set_eq hlen)
        · exact ih _ _ _ _ j v (by rw [List.getElem?_set_ne (Ne.symm hjs)]; exact h)

theorem anglesInRange_set {A : List (Option ℚ)} (hA : anglesInRange A)
    {i : ℕ} {v : ℚ} (h0 : 0 ≤ v) (h1 : v < 360) :
    anglesInRange (A.set i (some v)) := by
  intro j w hw
  rw [List.getElem?_set] at hw
  by_cases hij : i = j
  · rw [if_pos hij] at hw
    by_cases hl : i < A.length
    · rw [if_pos hl] at hw
      obtain rfl : v = w := by
        have := Option.some_injective _ hw
        exact Option.some_injective _ this
      exact ⟨h0, h1⟩
    · rw [if_neg hl] at hw
      exact Option.noConfusion hw
  · rw [if_neg hij] at hw
    exact hA j w hw

theorem assignWedgeItems_inRange (n e : ℕ) (β γ pa : ℚ) (hβ : 0 ≤ β) (hγ : 0 ≤ γ) :
    ∀ (fuel s count : ℕ) (pgr : Bool) (A : List (Option ℚ)),
      anglesInRange A →
      anglesInRange (assignWedgeItems n e β γ pa fuel s count pgr A) := by
  intro fuel
  induction fuel with
  | zero => intro s count pgr A hA; exact hA
  | succ fuel ih =>
      intro s count pgr A hA
      rw [assignWedgeItems]
      split
      · exact hA
      · apply ih
        apply anglesInRange_set hA
        · exact jsMod_nonneg (add_nonneg hβ (mul_nonneg hγ (Nat.cast_nonneg _)))
        · exact jsMod_lt (add_nonneg hβ (mul_nonneg hγ (Nat.cast_nonneg _)))

/-! ## Lemmas about one main-loop iteration -/

theorem getD_mem_of_lt {α : Type} [Inhabited α] {l : List α} {m : ℕ}
    (h : m < l.length) : l.getD m default ∈ l := by
  rw [List.getD_eq_getElem _ _ h]
  exact List.getElem_mem h

theorem computeItemAnglesCore_eq_fold (n : ℕ) (A : List (ℚ × ℕ))
    (pa : Option ℚ) (init : List (Option ℚ)) :
    computeItemAnglesCore n A pa init =
      ((List.range A.length).foldl (wedgeStep n A) (init, pa)).1 := by
  rw [computeItemAnglesCore, cyclicPairs, List.foldl_map]
  rfl

theorem processWedge_shape (n : ℕ) (A : List (Option ℚ)) (pa : Option ℚ)
    (pair : (ℚ × ℕ) × (ℚ × ℕ)) :
    ∃ (γ pa' : ℚ) (pgr : Bool),
      (processWedge n (A, pa) pair).1 =
        assignWedgeItems n pair.2.2 pair.1.1 γ pa' n ((pair.1.2 + 1) % n) 1 pgr
          (A.set pair.1.2 (some pair.1.1)) := by
  rw [processWedge]
  rcases pa with _ | p
  · exact ⟨_, _, _, rfl⟩
  · exact ⟨_, _, _, rfl⟩

theorem processWedge_length (n : ℕ) (st : List (Option ℚ) × Option ℚ)
    (pair : (ℚ × ℕ) × (ℚ × ℕ)) :
    (processWedge n st pair).1.length = st.1.length := by
  obtain ⟨A, pa⟩ := st
  obtain ⟨γ, pa', pgr, h⟩ := processWedge_shape n A pa pair
  rw [h, assignWedgeItems_length, List.length_set]

theorem processWedge_anchor (n : ℕ) (A : List (Option ℚ)) (pa : Option ℚ)
    (pair : (ℚ × ℕ) × (ℚ × ℕ)) (hb : pair.1.2 < n) (he : pair.2.2 < n)
    (hA : A.length = n) :
    (processWedge n (A, pa) pair).1[pair.1.2]? = some (some pair.1.1) := by
  obtain ⟨γ, pa', pgr, h⟩ := processWedge_shape n A pa pair
  rw [h]
  rw [assignWedgeItems_frame n pair.2.2 he _ γ pa' n _ 1 pgr _ pair.1.2
    (Nat.mod_lt _ (by omega)) ?_]
  · exact List.getElem?_set_eq (by omega)
  · right
    have hself := cdist_step_self hb
    have hlt := cdist_lt (n := n) (s := (pair.1.2 + 1) % n) (j := pair.2.2)
      (by omega : 0 < n)
    omega

theorem processWedge_frame (n : ℕ) (A : List (Option ℚ)) (pa : Option ℚ)
    (pair : (ℚ × ℕ) × (ℚ × ℕ)) (hb : pair.1.2 < n) (he : pair.2.2 < n)
    (j : ℕ) (hjb : j ≠ pair.1.2)
    (hcond : n ≤ j ∨
      ¬ cdist n ((pair.1.2 + 1) % n) j < cdist n ((pair.1.2 + 1) % n) pair.2.2) :
    (processWedge n (A, pa) pair).1[j]? = A[j]? := by
  obtain ⟨γ, pa', pgr, h⟩ := processWedge_shape n A pa pair
  rw [h]
  rw [assignWedgeItems_frame n pair.2.2 he _ γ pa' n _ 1 pgr _ j
    (Nat.mod_lt _ (by omega)) hcond]
  exact List.getElem?_set_ne (Ne.symm hjb)

theorem processWedge_covers (n : ℕ) (A : List (Option ℚ)) (pa : Option ℚ)
    (pair : (ℚ × ℕ) × (ℚ × ℕ)) (hb : pair.1.2 < n) (he : pair.2.2 < n)
    (hA : A.length = n) (j : ℕ) (hj : j < n)
    (hcover : j = pair.1.2 ∨
      cdist n ((pair.1.2 + 1) % n) j < cdist n ((pair.1.2 + 1) % n) pair.2.2) :
    ∃ v : ℚ, (processWedge n (A, pa) pair).1[j]? = some (some v) := by
  rcases hcover with h | h
  · subst h
    exact ⟨pair.1.1, processWedge_anchor n A pa pair hb he hA⟩
  · obtain ⟨γ, pa', pgr, hsh⟩ := processWedge_shape n A pa pair
    rw [hsh]
    exact assignWedgeItems_covers n pair.2.2 he _ γ pa' n _ 1 pgr _ j
      (Nat.mod_lt _ (by omega)) hj (by rw [List.length_set]; exact hA)
      (le_of_lt (cdist_lt (by omega))) h

theorem processWedge_mono (n : ℕ) (st : List (Option ℚ) × Option ℚ)
    (pair : (ℚ × ℕ) × (ℚ × ℕ)) (j : ℕ) (v : ℚ)
    (h : st.1[j]? = some (some v)) :
    ∃ w : ℚ, (processWedge n st pair).1[j]? = some (some w) := by
  obtain ⟨A, pa⟩ := st
  dsimp only at h
  obtain ⟨γ, pa', pgr, hsh⟩ := processWedge_shape n A pa pair
  rw [hsh]
  by_cases hjb : j = pair.1.2
  · have hlen : j < A.length := by
      by_contra hc
      rw [List.getElem?_eq_none (by omega)] at h
      exact Option.noConfusion h
    refine assignWedgeItems_mono _ _ _ γ pa' _ _ 1 pgr _ j pair.1.1 ?_
    rw [hjb]
    exact List.getElem?_set_eq (by omega)
  · exact assignWedgeItems_mono _ _ _ γ pa' _ _ 1 pgr _ j v
      (by rw [List.getElem?_set_ne (Ne.symm hjb)]; exact h)

theorem processWedge_inRange (n : ℕ) (st : List (Option ℚ) × Option ℚ)
    (pair : (ℚ × ℕ) × (ℚ × ℕ))
    (ha : 0 ≤ pair.1.1 ∧ pair.1.1 < 360) (ha' : 0 ≤ pair.2.1 ∧ pair.2.1 < 360)
    (hst : anglesInRange st.1) :
    anglesInRange (processWedge n st pair).1 := by
  obtain ⟨A, pa⟩ := st
  have hset : anglesInRange (A.set pair.1.2 (some pair.1.1)) :=
    anglesInRange_set hst ha.1 ha.2
  have hend : pair.1.1 ≤ if pair.2.1 ≤ pair.1.1 then pair.2.1 + 360 else pair.2.1 := by
    split <;> [linarith [ha.2, ha'.1]; linarith]
  rw [processWedge]
  rcases pa with _ | p
  · exact assignWedgeItems_inRange n pair.2.2 pair.1.1 _ 0 ha.1
      (div_nonneg (by linarith) (by positivity)) _ _ 1 _ _ hset
  · exact assignWedgeItems_inRange n pair.2.2 pair.1.1 _ _ ha.1
      (div_nonneg (by linarith) (by positivity)) _ _ 1 _ _ hset

/-! ## Combinatorics of the anchor indices

After pruning, the item indices of the fixed-angle list are strictly
increasing.  The lemmas below show that walking cyclically from one anchor
index, the cyclically next anchor in the list is the first anchor reached,
and that the anchor indices together with the open cyclic ranges between
consecutive anchors cover every item index. -/

theorem anchorIdx_mono {A : List (ℚ × ℕ)}
    (hpw : (A.map Prod.snd).Pairwise (· < ·))
    {i j : ℕ} (hij : i < j) (hj : j < A.length) :
    (A.getD i default).2 < (A.getD j default).2 := by
  have hi : i < A.length := lt_trans hij hj
  have := List.pairwise_iff_get.mp hpw
    ⟨i, by rw [List.length_map]; exact hi⟩ ⟨j, by rw [List.length_map]; exact hj⟩ hij
  rw [List.get_map, List.get_map] at this
  rw [List.getD_eq_getElem _ _ hi, List.getD_eq_getElem _ _ hj]
  exact this

theorem anchorIdx_mono_le {A : List (ℚ × ℕ)}
    (hpw : (A.map Prod.snd).Pairwise (· < ·))
    {i j : ℕ} (hij : i ≤ j) (hj : j < A.length) :
    (A.getD i default).2 ≤ (A.getD j default).2 := by
  rcases lt_or_eq_of_le hij with h | h
  · exact le_of_lt (anchorIdx_mono hpw h hj)
  · rw [h]

theorem anchor_next_min (n : ℕ) (A : List (ℚ × ℕ)) (hn : 0 < n)
    (hidx : ∀ x ∈ A, x.2 < n) (hpw : (A.map Prod.snd).Pairwise (· < ·))
    (m mx : ℕ) (hm : m < A.length) (hmx : mx < A.length) :
    cdist n (((A.getD m default).2 + 1) % n)
        ((A.getD ((m + 1) % A.length) default).2) ≤
      cdist n (((A.getD m default).2 + 1) % n) ((A.getD mx default).2) := by
  have hk : 0 < A.length := by omega
  set b := (A.getD m default).2 with hb_def
  set x := (A.getD mx default).2 with hx_def
  have hbn : b < n := hidx _ (getD_mem_of_lt hm)
  have hxn : x < n := hidx _ (getD_mem_of_lt hmx)
  by_cases hml : m + 1 < A.length
  · -- interior pair: the next anchor is at position m+1
    have hmod : (m + 1) % A.length = m + 1 := Nat.mod_eq_of_lt hml
    rw [hmod]
    set t := (A.getD (m + 1) default).2 with ht_def
    have htn : t < n := hidx _ (getD_mem_of_lt hml)
    have hbt : b < t := anchorIdx_mono hpw (Nat.lt_succ_self m) hml
    have hs : b + 1 < n := by omega
    have hsmod : (b + 1) % n = b + 1 := Nat.mod_eq_of_lt hs
    rw [hsmod, cdist_closed hs htn, cdist_closed hs hxn]
    rcases lt_trichotomy mx m with hc | hc | hc
    · have : x < b := anchorIdx_mono hpw hc hm
      split <;> split <;> omega
    · have : x = b := by rw [hx_def, hb_def, hc]
      split <;> split <;> omega
    · have : t ≤ x := anchorIdx_mono_le hpw hc hmx
      split <;> split <;> omega
  · -- wrap pair: m is the last anchor, the next anchor is at position 0
    have hmeq : m = A.length - 1 := by omega
    have hmod : (m + 1) % A.length = 0 := by
      have : m + 1 = A.length := by omega
      rw [this, Nat.mod_self]
    rw [hmod]
    set t := (A.getD 0 default).2 with ht_def
    have htn : t < n := hidx _ (getD_mem_of_lt hk)
    have htx : t ≤ x := anchorIdx_mono_le hpw (Nat.zero_le mx) hmx
    have hxb : x ≤ b := by
      rw [hx_def, hb_def]
      exact anchorIdx_mono_le hpw (by omega) hm
    by_cases hbn1 : b + 1 = n
    · have : (b + 1) % n = 0 := by rw [hbn1, Nat.mod_self]
      rw [this, cdist_closed hn htn, cdist_closed hn hxn]
      split <;> split <;> omega
    · have hs : b + 1 < n := by omega
      have : (b + 1) % n = b + 1 := Nat.mod_eq_of_lt hs
      rw [this, cdist_closed hs htn, cdist_closed hs hxn]
      split <;> split <;> omega

theorem anchor_trichotomy :
    ∀ (A : List (ℚ × ℕ)), A ≠ [] → (A.map Prod.snd).Pairwise (· < ·) → ∀ (j : ℕ),
      j < (A.getD 0 default).2 ∨ (A.getD (A.length - 1) default).2 ≤ j ∨
        ∃ m, m + 1 < A.length ∧ (A.getD m default).2 ≤ j ∧
          j < (A.getD (m + 1) default).2
  | [], hA, _, _ => absurd rfl hA
  | [hd], _, _, j => by
      rcases le_or_lt hd.2 j with h | h
      · exact Or.inr (Or.inl h)
      · exact Or.inl h
  | hd :: y :: t, _, hpw, j => by
      rcases lt_or_le j hd.2 with h | h
      · exact Or.inl h
      · have hpw' : ((y :: t).map Prod.snd).Pairwise (· < ·) := by
          rw [List.map_cons] at hpw
          exact (List.pairwise_cons.mp hpw).2
        rcases anchor_trichotomy (y :: t) (by simp) hpw' j with h1 | h1 | h1
        · refine Or.inr (Or.inr ⟨0, ?_, ?_, ?_⟩)
          · simp
          · simpa using h
          · simpa using h1
        · refine Or.inr (Or.inl ?_)
          have he : (hd :: y :: t).getD ((hd :: y :: t).length - 1) default
              = (y :: t).getD ((y :: t).length - 1) default := by
            have hlen : (hd :: y :: t).length - 1 = ((y :: t).length - 1) + 1 := by
              simp
            rw [hlen, List.getD_cons_succ]
          rw [he]
          exact h1
        · obtain ⟨m, hm1, hm2, hm3⟩ := h1
          refine Or.inr (Or.inr ⟨m + 1, ?_, ?_, ?_⟩)
          · simpa using Nat.succ_lt_succ hm1
          · simpa [List.getD_cons_succ] using hm2
          · simpa [List.getD_cons_succ] using hm3

theorem anchor_cover (n : ℕ) (A : List (ℚ × ℕ)) (hn : 0 < n) (hA : A ≠ [])
    (hidx : ∀ x ∈ A, x.2 < n) (hpw : (A.map Prod.snd).Pairwise (· < ·))
    (j : ℕ) (hj : j < n) :
    ∃ m, m < A.length ∧ (j = (A.getD m default).2 ∨
      cdist n (((A.getD m default).2 + 1) % n) j <
        cdist n (((A.getD m default).2 + 1) % n)
          ((A.getD ((m + 1) % A.length) default).2)) := by
  have hk : 0 < A.length := List.length_pos.mpr hA
  by_cases hanch : ∃ m, m < A.length ∧ (A.getD m default).2 = j
  · obtain ⟨m, hm, he⟩ := hanch
    exact ⟨m, hm, Or.inl he.symm⟩
  · push_neg at hanch
    have hb0n : (A.getD 0 default).2 < n := hidx _ (getD_mem_of_lt hk)
    have hbln : (A.getD (A.length - 1) default).2 < n :=
      hidx _ (getD_mem_of_lt (by omega))
    have hmodl : (A.length - 1 + 1) % A.length = 0 := by
      have he : A.length - 1 + 1 = A.length := by omega
      rw [he, Nat.mod_self]
    rcases anchor_trichotomy A hA hpw j with h1 | h1 | h1
    · -- j is below the smallest anchor index: the wrap wedge covers it
      refine ⟨A.length - 1, by omega, Or.inr ?_⟩
      rw [hmodl]
      set b := (A.getD (A.length - 1) default).2 with hb_def
      set t := (A.getD 0 default).2 with ht_def
      have hbt : t ≤ b := anchorIdx_mono_le hpw (by omega) (by omega)
      by_cases hb1 : b + 1 = n
      · have hs : (b + 1) % n = 0 := by rw [hb1, Nat.mod_self]
        rw [hs, cdist_closed hn hj, cdist_closed hn hb0n]
        split <;> split <;> omega
      · have hsn : b + 1 < n := by omega
        have hs : (b + 1) % n = b + 1 := Nat.mod_eq_of_lt hsn
        rw [hs, cdist_closed hsn hj, cdist_closed hsn hb0n]
        split <;> split <;> omega
    · -- j is above the largest anchor index: the wrap wedge covers it
      have hblt : (A.getD (A.length - 1) default).2 < j := by
        rcases lt_or_eq_of_le h1 with h | h
        · exact h
        · exact absurd h (hanch (A.length - 1) (by omega))
      refine ⟨A.length - 1, by omega, Or.inr ?_⟩
      rw [hmodl]
      set b := (A.getD (A.length - 1) default).2 with hb_def
      set t := (A.getD 0 default).2 with ht_def
      have hbt : t ≤ b := anchorIdx_mono_le hpw (by omega) (by omega)
      have hsn : b + 1 < n := by omega
      have hs : (b + 1) % n = b + 1 := Nat.mod_eq_of_lt hsn
      rw [hs, cdist_closed hsn hj, cdist_closed hsn hb0n]
      split <;> split <;> omega
    · -- j lies strictly between two consecutive anchor indices
      obtain ⟨m, hm1, hm2, hm3⟩ := h1
      have hbj : (A.getD m default).2 < j := by
        rcases lt_or_eq_of_le hm2 with h | h
        · exact h
        · exact absurd h (hanch m (by omega))
      refine ⟨m, by omega, Or.inr ?_⟩
      have hmod : (m + 1) % A.length = m + 1 := Nat.mod_eq_of_lt hm1
      rw [hmod]
      set b := (A.getD m default).2 with hb_def
      set t := (A.getD (m + 1) default).2 with ht_def
      have htn : t < n := hidx _ (getD_mem_of_lt hm1)
      have hsn : b + 1 < n := by omega
      have hs : (b + 1) % n = b + 1 := Nat.mod_eq_of_lt hsn
      rw [hs, cdist_closed hsn hj, cdist_closed hsn htn]
      split <;> split <;> omega

/-! ## Lemmas about the full main loop -/

theorem foldWedges_length (n : ℕ) (A : List (ℚ × ℕ)) :
    ∀ (ms : List ℕ) (st : List (Option ℚ) × Option ℚ),
      (ms.foldl (wedgeStep n A) st).1.length = st.1.length := by
  intro ms
  induction ms with
  | nil => intro st; rfl
  | cons m tail ih =>
      intro st
      rw [List.foldl_cons, ih, wedgeStep, processWedge_length]

theorem foldWedges_mono (n : ℕ) (A : List (ℚ × ℕ)) :
    ∀ (ms : List ℕ) (st : List (Option ℚ) × Option ℚ) (j : ℕ) (v : ℚ),
      st.1[j]? = some (some v) →
      ∃ w : ℚ, (ms.foldl (wedgeStep n A) st).1[j]? = some (some w) := by
  intro ms
  induction ms with
  | nil => exact fun st j v h => ⟨v, h⟩
  | cons m tail ih =>
      intro st j v h
      rw [List.foldl_cons]
      obtain ⟨w, hw⟩ := processWedge_mono n st
        (A.getD m default, A.getD ((m + 1) % A.length) default) j v h
      exact ih _ j w hw

theorem foldWedges_inRange (n : ℕ) (A : List (ℚ × ℕ))
    (hrange : ∀ x ∈ A, 0 ≤ x.1 ∧ x.1 < 360) :
    ∀ (ms : List ℕ) (st : List (Option ℚ) × Option ℚ),
      anglesInRange st.1 →
      anglesInRange (ms.foldl (wedgeStep n A) st).1 := by
  have hgetD : ∀ m : ℕ, 0 ≤ (A.getD m default).1 ∧ (A.getD m default).1 < 360 := by
    intro m
    by_cases hm : m < A.length
    · exact hrange _ (getD_mem_of_lt hm)
    · rw [List.getD_eq_default _ _ (by omega)]
      exact ⟨by decide, by decide⟩
  intro ms
  induction ms with
  | nil => exact fun st h => h
  | cons m tail ih =>
      intro st h
      rw [List.foldl_cons]
      exact ih _ (processWedge_inRange n st _ (hgetD m) (hgetD _) h)

theorem foldWedges_establishSome (n : ℕ) (A : List (ℚ × ℕ)) (hn : 0 < n)
    (hidx : ∀ x ∈ A, x.2 < n) :
    ∀ (ms : List ℕ) (st : List (Option ℚ) × Option ℚ) (j m₀ : ℕ),
      st.1.length = n → m₀ ∈ ms → m₀ < A.length → j < n →
      (j = (A.getD m₀ default).2 ∨
        cdist n (((A.getD m₀ default).2 + 1) % n) j <
          cdist n (((A.getD m₀ default).2 + 1) % n)
            ((A.getD ((m₀ + 1) % A.length) default).2)) →
      ∃ v : ℚ, (ms.foldl (wedgeStep n A) st).1[j]? = some (some v) := by
  intro ms
  induction ms with
  | nil =>
      intro st j m₀ _ hmem
      exact absurd hmem (List.not_mem_nil m₀)
  | cons m tail ih =>
      intro st j m₀ hlen hmem hm₀ hj hcov
      rw [List.foldl_cons]
      rcases List.mem_cons.mp hmem with he | hmem'
      · subst he
        obtain ⟨A0, pa⟩ := st
        dsimp only at hlen
        obtain ⟨v, hv⟩ := processWedge_covers n A0 pa
          (A.getD m₀ default, A.getD ((m₀ + 1) % A.length) default)
          (hidx _ (getD_mem_of_lt hm₀))
          (hidx _ (getD_mem_of_lt (Nat.mod_lt _ (by omega))))
          hlen j hj hcov
        exact foldWedges_mono n A tail _ j v hv
      · exact ih _ j m₀ (by rw [wedgeStep, processWedge_length]; exact hlen)
          hmem' hm₀ hj hcov

theorem foldWedges_preserveAt (n : ℕ) (A : List (ℚ × ℕ)) (hn : 0 < n)
    (hidx : ∀ x ∈ A, x.2 < n) (hpw : (A.map Prod.snd).Pairwise (· < ·)) :
    ∀ (ms : List ℕ) (st : List (Option ℚ) × Option ℚ) (j mj : ℕ)
      (v : Option (Option ℚ)),
      mj < A.length → j = (A.getD mj default).2 →
      (∀ m ∈ ms, m < A.length) →
      (∀ m ∈ ms, (A.getD m default).2 ≠ j) →
      st.1[j]? = v →
      (ms.foldl (wedgeStep n A) st).1[j]? = v := by
  intro ms
  induction ms with
  | nil => intro st j mj v _ _ _ _ h; exact h
  | cons m tail ih =>
      intro st j mj v hmj hjeq hlt hne h
      rw [List.foldl_cons]
      have hmmem : m ∈ m :: tail := List.mem_cons_self m tail
      have hmA : m < A.length := hlt m hmmem
      refine ih _ j mj v hmj hjeq
        (fun m' hm' => hlt m' (List.mem_cons_of_mem _ hm'))
        (fun m' hm' => hne m' (List.mem_cons_of_mem _ hm')) ?_
      obtain ⟨A0, pa⟩ := st
      dsimp only at h
      rw [wedgeStep]
      rw [processWedge_frame n A0 pa _ (hidx _ (getD_mem_of_lt hmA))
        (hidx _ (getD_mem_of_lt (Nat.mod_lt _ (by omega)))) j
        (fun hh => (hne m hmmem) hh.symm) ?_]
      · exact h
      · right
        dsimp only
        have hmin := anchor_next_min n A hn hidx hpw m mj hmA hmj
        rw [← hjeq] at hmin
        omega

theorem foldWedges_establishValue (n : ℕ) (A : List (ℚ × ℕ)) (hn : 0 < n)
    (hidx : ∀ x ∈ A, x.2 < n) (hpw : (A.map Prod.snd).Pairwise (· < ·)) :
    ∀ (ms : List ℕ) (st : List (Option ℚ) × Option ℚ) (m₀ : ℕ),
      st.1.length = n → m₀ ∈ ms → (∀ m ∈ ms, m < A.length) →
      (ms.foldl (wedgeStep n A) st).1[(A.getD m₀ default).2]? =
        some (some (A.getD m₀ default).1) := by
  intro ms
  induction ms with
  | nil =>
      intro st m₀ _ hmem
      exact absurd hmem (List.not_mem_nil m₀)
  | cons m tail ih =>
      intro st m₀ hlen hmem hlt
      rw [List.foldl_cons]
      by_cases hmt : m₀ ∈ tail
      · exact ih _ m₀ (by rw [wedgeStep, processWedge_length]; exact hlen) hmt
          (fun m' hm' => hlt m' (List.mem_cons_of_mem _ hm'))
      · have he : m₀ = m := by
          rcases List.mem_cons.mp hmem with h | h
          · exact h
          · exact absurd h hmt
        subst he
        have hm₀ : m₀ < A.length := hlt m₀ (List.mem_cons_self _ _)
        obtain ⟨A0, pa⟩ := st
        dsimp only at hlen
        refine foldWedges_preserveAt n A hn hidx hpw tail _ _ m₀ _ hm₀ rfl
          (fun m' hm' => hlt m' (List.mem_cons_of_mem _ hm'))
          (fun m' hm' => ?_) ?_
        · have hm'A : m' < A.length := hlt m' (List.mem_cons_of_mem _ hm')
          have hne : m' ≠ m₀ := fun hh => hmt (hh ▸ hm')
          rcases lt_or_gt_of_ne hne with hc | hc
          · exact ne_of_lt (anchorIdx_mono hpw hc hm₀)
          · exact ne_of_gt (anchorIdx_mono hpw hc hm'A)
        · exact processWedge_anchor n A0 pa _ (hidx _ (getD_mem_of_lt hm₀))
            (hidx _ (getD_mem_of_lt (Nat.mod_lt _ (by omega)))) hlen

/-! ## The main loop at the `computeItemAnglesCore` level -/

theorem computeItemAnglesCore_length (n : ℕ) (A : List (ℚ × ℕ)) (pa : Option ℚ)
    (init : List (Option ℚ)) :
    (computeItemAnglesCore n A pa init).length = init.length := by
  rw [computeItemAnglesCore_eq_fold]
  exact foldWedges_length n A _ _

theorem computeItemAnglesCore_covers (n : ℕ) (A : List (ℚ × ℕ)) (pa : Option ℚ)
    (init : List (Option ℚ)) (hn : 0 < n) (hA : A ≠ [])
    (hidx : ∀ x ∈ A, x.2 < n) (hpw : (A.map Prod.snd).Pairwise (· < ·))
    (hinit : init.length = n) (j : ℕ) (hj : j < n) :
    ∃ v : ℚ, (computeItemAnglesCore n A pa init)[j]? = some (some v) := by
  rw [computeItemAnglesCore_eq_fold]
  obtain ⟨m, hm, hcov⟩ := anchor_cover n A hn hA hidx hpw j hj
  exact foldWedges_establishSome n A hn hidx (List.range A.length) (init, pa) j m
    hinit (List.mem_range.mpr hm) hm hj hcov

theorem computeItemAnglesCore_fixed (n : ℕ) (A : List (ℚ × ℕ)) (pa : Option ℚ)
    (init : List (Option ℚ)) (hn : 0 < n)
    (hidx : ∀ x ∈ A, x.2 < n) (hpw : (A.map Prod.snd).Pairwise (· < ·))
    (hinit : init.length = n) (a : ℚ) (i : ℕ) (hmem : (a, i) ∈ A) :
    (computeItemAnglesCore n A pa init)[i]? = some (some a) := by
  rw [computeItemAnglesCore_eq_fold]
  obtain ⟨⟨m, hm⟩, hget⟩ := List.mem_iff_get.mp hmem
  have hD : A.getD m default = (a, i) := by
    rw [List.getD_eq_getElem _ _ hm]
    exact hget
  have h := foldWedges_establishValue n A hn hidx hpw (List.range A.length)
    (init, pa) m hinit (List.mem_range.mpr hm) (fun m' hm' => List.mem_range.mp hm')
  rw [hD] at h
  exact h

theorem computeItemAnglesCore_inRange (n : ℕ) (A : List (ℚ × ℕ)) (pa : Option ℚ)
    (init : List (Option ℚ)) (hrange : ∀ x ∈ A, 0 ≤ x.1 ∧ x.1 < 360)
    (hinit : anglesInRange init) :
    anglesInRange (computeItemAnglesCore n A pa init) := by
  rw [computeItemAnglesCore_eq_fold]
  exact foldWedges_inRange n A hrange (List.range A.length) (init, pa) hinit

/-! ## Facts about the fixed-angle pipeline -/

theorem collectFixedAnglesAux_spec :
    ∀ (l : List Item) (i : ℕ),
      ((collectFixedAnglesAux i l).map Prod.snd).Pairwise (· < ·) ∧
      ∀ x ∈ collectFixedAnglesAux i l, i ≤ x.2 ∧ x.2 < i + l.length ∧ 0 ≤ x.1 := by
  intro l
  induction l with
  | nil =>
      intro i
      exact ⟨List.Pairwise.nil, fun x hx => absurd hx (List.not_mem_nil x)⟩
  | cons hd tl ih =>
      intro i
      rcases hd with _ | a
      · obtain ⟨hp, hb⟩ := ih (i + 1)
        refine ⟨hp, fun x hx => ?_⟩
        obtain ⟨h1, h2, h3⟩ := hb x hx
        exact ⟨by omega, by simpa [List.length_cons] using by omega, h3⟩
      · rw [collectFixedAnglesAux]
        split
        · obtain ⟨hp, hb⟩ := ih (i + 1)
          constructor
          · rw [List.map_cons]
            refine List.pairwise_cons.mpr ⟨?_, hp⟩
            intro b hbmem
            obtain ⟨x, hxmem, hxeq⟩ := List.mem_map.mp hbmem
            obtain ⟨h1, _, _⟩ := hb x hxmem
            omega
          · intro x hx
            rcases List.mem_cons.mp hx with h | h
            · subst h
              refine ⟨le_refl i, by simp, by assumption⟩
            · obtain ⟨h1, h2, h3⟩ := hb x h
              exact ⟨by omega, by simp [List.length_cons]; omega, h3⟩
        · obtain ⟨hp, hb⟩ := ih (i + 1)
          refine ⟨hp, fun x hx => ?_⟩
          obtain ⟨h1, h2, h3⟩ := hb x hx
          exact ⟨by omega, by simp [List.length_cons]; omega, h3⟩

theorem nudge_map_snd (pa : Option ℚ) (fas : List (ℚ × ℕ)) :
    (nudgeFixedAngles pa fas).map Prod.snd = fas.map Prod.snd := by
  rcases pa with _ | p
  · rfl
  · rw [nudgeFixedAngles, List.map_map]
    apply List.map_congr_left
    intro x _
    simp only [Function.comp_apply]
    split <;> rfl

theorem normalize_map_snd (fas : List (ℚ × ℕ)) :
    (normalizeFixedAngles fas).map Prod.snd = fas.map Prod.snd := by
  rw [normalizeFixedAngles, List.map_map]
  apply List.map_congr_left
  intro x _
  rfl

theorem nudge_mem {pa : Option ℚ} {fas : List (ℚ × ℕ)} {y : ℚ × ℕ}
    (hy : y ∈ nudgeFixedAngles pa fas) :
    ∃ z ∈ fas, y.2 = z.2 ∧ (y.1 = z.1 ∨ y.1 = z.1 + 1 / 10) := by
  rcases pa with _ | p
  · exact ⟨y, hy, rfl, Or.inl rfl⟩
  · obtain ⟨z, hz, he⟩ := List.mem_map.mp hy
    refine ⟨z, hz, ?_⟩
    by_cases hc : |z.1 - p| < 1 / 10000
    · rw [if_pos hc] at he
      rw [← he]
      exact ⟨rfl, Or.inr rfl⟩
    · rw [if_neg hc] at he
      rw [← he]
      exact ⟨rfl, Or.inl rfl⟩

theorem normalize_mem {fas : List (ℚ × ℕ)} {x : ℚ × ℕ}
    (hx : x ∈ normalizeFixedAngles fas) :
    ∃ y ∈ fas, x = (jsMod y.1 360, y.2) := by
  obtain ⟨y, hy, he⟩ := List.mem_map.mp hx
  exact ⟨y, hy, he.symm⟩

theorem pruneGo_sublist : ∀ (c : ℚ × ℕ) (l : List (ℚ × ℕ)),
    (pruneFixedAnglesGo c l).Sublist l := by
  intro c l
  induction l generalizing c with
  | nil => exact List.Sublist.refl []
  | cons y ys ih =>
      rw [pruneFixedAnglesGo]
      split
      · exact List.Sublist.cons y (ih c)
      · exact List.Sublist.cons₂ y (ih y)

theorem prune_sublist (l : List (ℚ × ℕ)) : (pruneFixedAngles l).Sublist l := by
  rcases l with _ | ⟨x, xs⟩
  · exact List.Sublist.refl []
  · exact List.Sublist.cons₂ x (pruneGo_sublist x xs)

theorem prune_eq_nil_iff (l : List (ℚ × ℕ)) : pruneFixedAngles l = [] ↔ l = [] := by
  rcases l with _ | ⟨x, xs⟩
  · simp [pruneFixedAngles]
  · simp [pruneFixedAngles]

theorem processedFixedAngles_facts (items : List Item) (pa : Option ℚ) :
    ((processedFixedAngles items pa).map Prod.snd).Pairwise (· < ·) ∧
    (∀ x ∈ processedFixedAngles items pa, x.2 < items.length) ∧
    (∀ x ∈ processedFixedAngles items pa, 0 ≤ x.1 ∧ x.1 < 360) := by
  obtain ⟨hcp, hcb⟩ := collectFixedAnglesAux_spec items 0
  have hsnd : (normalizeFixedAngles (nudgeFixedAngles pa (collectFixedAngles items))).map Prod.snd
      = (collectFixedAngles items).map Prod.snd := by
    rw [normalize_map_snd, nudge_map_snd]
  constructor
  · have hpl : ((normalizeFixedAngles (nudgeFixedAngles pa
        (collectFixedAngles items))).map Prod.snd).Pairwise (· < ·) := by
      rw [hsnd]
      exact hcp
    exact List.Pairwise.sublist (List.Sublist.map Prod.snd (prune_sublist _)) hpl
  · have hmem : ∀ x ∈ processedFixedAngles items pa,
        ∃ z ∈ collectFixedAngles items,
          x.2 = z.2 ∧ 0 ≤ x.1 ∧ x.1 < 360 := by
      intro x hx
      have hx1 : x ∈ normalizeFixedAngles (nudgeFixedAngles pa (collectFixedAngles items)) :=
        (prune_sublist _).mem hx
      obtain ⟨y, hy, hxe⟩ := normalize_mem hx1
      obtain ⟨z, hz, hy2, hy1⟩ := nudge_mem hy
      have hzpos : 0 ≤ z.1 := (hcb z hz).2.2
      have hypos : 0 ≤ y.1 := by rcases hy1 with h | h <;> (rw [h]; linarith)
      refine ⟨z, hz, ?_, ?_, ?_⟩
      · rw [hxe]; exact hy2
      · rw [hxe]; exact jsMod_nonneg hypos
      · rw [hxe]; exact jsMod_lt hypos
    constructor
    · intro x hx
      obtain ⟨z, hz, he, _, _⟩ := hmem x hx
      rw [he]
      have := (hcb z hz).2.1
      omega
    · intro x hx
      obtain ⟨_, _, _, h1, h2⟩ := hmem x hx
      exact ⟨h1, h2⟩

theorem foldl_snd_invariant {α : Type} (P : ℚ → Prop) (f : ℚ × ℚ → α → ℚ × ℚ)
    (hf : ∀ st i, P st.2 → P (f st i).2) :
    ∀ (l : List α) (st : ℚ × ℚ), P st.2 → P (l.foldl f st).2 := by
  intro l
  induction l with
  | nil => exact fun st h => h
  | cons x tail ih =>
      intro st h
      rw [List.foldl_cons]
      exact ih _ (hf st x h)

theorem computeFirstAngle_range (nI : ℕ) (p : ℚ) :
    0 ≤ computeFirstAngle nI p ∧ computeFirstAngle nI p < 360 := by
  rw [computeFirstAngle]
  refine foldl_snd_invariant (fun v => 0 ≤ v ∧ v < 360) _ ?_ (List.range nI) (360, 0)
    ⟨le_refl 0, by norm_num⟩
  intro st i h
  dsimp only
  split
  · constructor
    · exact jsMod_nonneg (by linarith [jsMod_gt_neg (a := p + (i + 1 : ℕ) * (360 / (nI + 1 : ℚ)))])
    · exact jsMod_lt (by linarith [jsMod_gt_neg (a := p + (i + 1 : ℕ) * (360 / (nI + 1 : ℚ)))])
  · exact h

/-! ## Master lemmas about `computeItemAngles` -/

theorem anglesInRange_replicate (n : ℕ) :
    anglesInRange (List.replicate n (none : Option ℚ)) := by
  intro j v h
  rw [List.getElem?_replicate] at h
  split at h
  · exact Option.noConfusion (Option.some_injective _ h)
  · exact Option.noConfusion h

theorem computeItemAngles_length (items : List Item) (pa : Option ℚ) :
    (computeItemAngles items pa).length = items.length := by
  by_cases h0 : items.length = 0
  · simp only [computeItemAngles]
    rw [if_pos h0, List.length_nil, h0]
  · simp only [computeItemAngles]
    rw [if_neg h0]
    by_cases h1 : (processedFixedAngles items pa).length = 0
    · rw [if_pos h1, computeItemAnglesCore_length, List.length_set, List.length_replicate]
    · rw [if_neg h1, computeItemAnglesCore_length, List.length_replicate]

theorem computeItemAngles_covers (items : List Item) (pa : Option ℚ) (j : ℕ)
    (hj : j < items.length) :
    ∃ v : ℚ, (computeItemAngles items pa)[j]? = some (some v) := by
  have hn : 0 < items.length := by omega
  obtain ⟨hpw, hidx, hrange⟩ := processedFixedAngles_facts items pa
  simp only [computeItemAngles]
  rw [if_neg (by omega)]
  by_cases h1 : (processedFixedAngles items pa).length = 0
  · rw [if_pos h1]
    apply computeItemAnglesCore_covers _ _ _ _ hn (by simp) ?_ ?_
      (by rw [List.length_set, List.length_replicate]) j hj
    · intro x hx
      rw [List.mem_singleton.mp hx]
      exact hn
    · rw [List.map_cons, List.map_nil]
      exact List.pairwise_singleton _ _
  · rw [if_neg h1]
    exact computeItemAnglesCore_covers _ _ _ _ hn
      (fun hh => h1 (by rw [hh]; rfl)) hidx hpw (List.length_replicate _ _) j hj

theorem computeItemAngles_inRange (items : List Item) (pa : Option ℚ) :
    anglesInRange (computeItemAngles items pa) := by
  obtain ⟨hpw, hidx, hrange⟩ := processedFixedAngles_facts items pa
  simp only [computeItemAngles]
  split
  · intro j v h
    rw [List.getElem?_nil] at h
    exact Option.noConfusion h
  · split
    · apply computeItemAnglesCore_inRange
      · intro x hx
        rw [List.mem_singleton.mp hx]
        rcases pa with _ | p
        · exact ⟨le_refl 0, by norm_num⟩
        · exact computeFirstAngle_range items.length p
      · apply anglesInRange_set (anglesInRange_replicate _)
        · rcases pa with _ | p
          · exact le_refl 0
          · exact (computeFirstAngle_range items.length p).1
        · rcases pa with _ | p
          · norm_num
          · exact (computeFirstAngle_range items.length p).2
    · exact computeItemAnglesCore_inRange _ _ _ _ hrange (anglesInRange_replicate _)

theorem computeItemAngles_fixed (items : List Item) (pa : Option ℚ) (a : ℚ) (i : ℕ)
    (hmem : (a, i) ∈ processedFixedAngles items pa) :
    (computeItemAngles items pa)[i]? = some (some a) := by
  obtain ⟨hpw, hidx, _⟩ := processedFixedAngles_facts items pa
  have hn : 0 < items.length := by
    have := hidx _ hmem
    omega
  have hne : (processedFixedAngles items pa).length ≠ 0 := by
    intro hh
    rw [List.length_eq_zero] at hh
    rw [hh] at hmem
    exact List.not_mem_nil _ hmem
  simp only [computeItemAngles]
  rw [if_neg (by omega), if_neg hne]
  exact computeItemAnglesCore_fixed items.length _ pa _ hn hidx hpw
    (List.length_replicate _ _) a i hmem

/-! ## Claim C2: count preservation -/

/-- Claim C2: for every list of N ≥ 0 items and any optional parent angle,
`computeItemAngles` returns an array of exactly N angles, and every position
`i < N` holds an assigned angle (no index is left unassigned; the entry at
position `i` is the angle of input item `i` by construction of the output
array). -/
theorem c2_count_preservation (items : List Item) (pa : Option ℚ) :
    (computeItemAngles items pa).length = items.length ∧
    ∀ i : ℕ, i < items.length →
      ((computeItemAngles items pa).getD i none).isSome := by
  refine ⟨computeItemAngles_length items pa, ?_⟩
  intro i hi
  obtain ⟨v, hv⟩ := computeItemAngles_covers items pa i hi
  rw [List.getD_eq_getElem?_getD, hv]
  rfl

/-- Claim C2 (witness): count preservation evaluated on a concrete 3-item
menu. -/
theorem c2_count_preservation_witness :
    (computeItemAngles [none, some 45, none] none).length = 3 ∧
    ((computeItemAngles [none, some 45, none] none).getD 2 none).isSome := by
  obtain ⟨h1, h2⟩ := c2_count_preservation [none, some 45, none] none
  exact ⟨h1, h2 2 (by norm_num)⟩

/-! ## Claim C10: every returned angle lies in `[0, 360)` -/

/-- Claim C10: every angle returned by `computeItemAngles` lies in the
half-open interval `[0, 360)`: fixed anchors are stored after normalization
mod 360, the synthesized first angle is taken mod 360, and every evenly
distributed angle is stored mod 360. -/
theorem c10_output_in_range (items : List Item) (pa : Option ℚ) (i : ℕ) (v : ℚ)
    (h : (computeItemAngles items pa).getD i none = some v) :
    0 ≤ v ∧ v < 360 := by
  have h' : (computeItemAngles items pa)[i]? = some (some v) := by
    rw [List.getD_eq_getElem?_getD] at h
    rcases he : (computeItemAngles items pa)[i]? with _ | w
    · rw [he] at h
      exact absurd h (by simp)
    · rw [he, Option.getD_some] at h
      rw [h]
  exact computeItemAngles_inRange items pa i v h'

/-- Claim C10 (witness): the range fact evaluated at a concrete output
angle. -/
theorem c10_output_in_range_witness : (0:ℚ) ≤ 285 ∧ (285:ℚ) < 360 :=
  c10_output_in_range [none, some 45, none] none 0 285 (by decide)

/-! ## Claim C1: fixed-angle fidelity -/

/-- Claim C1: for every item list in which some item carries a fixed angle
`a ∈ [0, 360)` that does not collide with the parent angle (differs by at
least `1/10000` degrees) and that survives the monotonic pruning of the
fixed-angle list, `computeItemAngles` returns for that item exactly its
input fixed angle (`a` mod 360 equals `a` on `[0, 360)`). -/
theorem c1_fixed_angle_fidelity (items : List Item) (pa : Option ℚ) (i : ℕ)
    (a : ℚ)
    (_hitem : items.getD i none = some a)
    (_h0 : 0 ≤ a) (_h1 : a < 360)
    (_hcol : ∀ p, pa = some p → 1 / 10000 ≤ |a - p|)
    (hsurv : (a, i) ∈ processedFixedAngles items pa) :
    (computeItemAngles items pa).getD i none = some a := by
  have h := computeItemAngles_fixed items pa a i hsurv
  rw [List.getD_eq_getElem?_getD, h]
  rfl

/-- Claim C1 (witness): fidelity evaluated on the concrete 3-item menu with
item 1 fixed at 45°. -/
theorem c1_fixed_angle_fidelity_witness :
    (computeItemAngles [none, some 45, none] none).getD 1 none = some 45 :=
  c1_fixed_angle_fidelity [none, some 45, none] none 1 45 (by decide)
    (by norm_num) (by norm_num) (fun p hp => Option.noConfusion hp) (by decide)

/-! ## Insertion lemmas for the drag-and-drop round trip -/

theorem collectFixedAnglesAux_append :
    ∀ (l1 l2 : List Item) (i : ℕ),
      collectFixedAnglesAux i (l1 ++ l2) =
        collectFixedAnglesAux i l1 ++ collectFixedAnglesAux (i + l1.length) l2 := by
  intro l1
  induction l1 with
  | nil =>
      intro l2 i
      simp [collectFixedAnglesAux]
  | cons hd t ih =>
      intro l2 i
      have hidx : i + (hd :: t).length = (i + 1) + t.length := by
        simp [List.length_cons]
        omega
      rcases hd with _ | a
      · rw [List.cons_append, collectFixedAnglesAux, collectFixedAnglesAux, ih, hidx]
      · rw [List.cons_append, collectFixedAnglesAux, collectFixedAnglesAux, ih, hidx]
        split <;> rfl

theorem nudge_append (pa : Option ℚ) (l1 l2 : List (ℚ × ℕ)) :
    nudgeFixedAngles pa (l1 ++ l2) =
      nudgeFixedAngles pa l1 ++ nudgeFixedAngles pa l2 := by
  rcases pa with _ | p
  · rfl
  · exact List.map_append _ _ _

theorem normalize_append (l1 l2 : List (ℚ × ℕ)) :
    normalizeFixedAngles (l1 ++ l2) =
      normalizeFixedAngles l1 ++ normalizeFixedAngles l2 :=
  List.map_append _ _ _

theorem nudge_cons_of_far (pa : Option ℚ) (x : ℚ × ℕ) (l : List (ℚ × ℕ))
    (h : ∀ p, pa = some p → 1 / 10000 ≤ |x.1 - p|) :
    nudgeFixedAngles pa (x :: l) = x :: nudgeFixedAngles pa l := by
  rcases pa with _ | p
  · rfl
  · rw [nudgeFixedAngles, List.map_cons, if_neg (not_lt.mpr (h p rfl))]
    rfl

theorem normalize_cons (x : ℚ × ℕ) (l : List (ℚ × ℕ)) :
    normalizeFixedAngles (x :: l) =
      (jsMod x.1 360, x.2) :: normalizeFixedAngles l := rfl

theorem pruneGo_insert_not_mem :
    ∀ (F : List (ℚ × ℕ)) (c x : ℚ × ℕ) (G : List (ℚ × ℕ)),
      x ∉ pruneFixedAnglesGo c (F ++ x :: G) →
      pruneFixedAnglesGo c (F ++ x :: G) = pruneFixedAnglesGo c (F ++ G) := by
  intro F
  induction F with
  | nil =>
      intro c x G hx
      simp only [List.nil_append] at hx ⊢
      by_cases hc : c.1 > x.1
      · rw [pruneFixedAnglesGo, if_pos hc]
      · exfalso
        apply hx
        rw [pruneFixedAnglesGo, if_neg hc]
        exact List.mem_cons_self _ _
  | cons y F' ih =>
      intro c x G hx
      rw [List.cons_append, pruneFixedAnglesGo] at hx
      rw [List.cons_append, List.cons_append, pruneFixedAnglesGo, pruneFixedAnglesGo]
      by_cases hc : c.1 > y.1
      · rw [if_pos hc] at hx
        rw [if_pos hc, if_pos hc]
        exact ih c x G hx
      · rw [if_neg hc] at hx
        rw [if_neg hc, if_neg hc]
        rw [ih y x G (fun hm => hx (List.mem_cons_of_mem _ hm))]

theorem prune_insert_not_mem (F G : List (ℚ × ℕ)) (x : ℚ × ℕ)
    (hx : x ∉ pruneFixedAngles (F ++ x :: G)) :
    pruneFixedAngles (F ++ x :: G) = pruneFixedAngles (F ++ G) := by
  rcases F with _ | ⟨f, F'⟩
  · exfalso
    apply hx
    rw [List.nil_append, pruneFixedAngles]
    exact List.mem_cons_self _ _
  · simp only [List.cons_append, pruneFixedAngles] at hx ⊢
    rw [pruneGo_insert_not_mem F' f x G (fun hm => hx (List.mem_cons_of_mem _ hm))]

theorem processed_insert (items : List Item) (pa : Option ℚ) (d : ℕ) (x : Item)
    (hd : d ≤ items.length) :
    normalizeFixedAngles (nudgeFixedAngles pa
        (collectFixedAngles (items.take d ++ [x] ++ items.drop d))) =
      normalizeFixedAngles (nudgeFixedAngles pa (collectFixedAnglesAux 0 (items.take d)))
      ++ normalizeFixedAngles (nudgeFixedAngles pa (collectFixedAnglesAux d [x]))
      ++ normalizeFixedAngles (nudgeFixedAngles pa
          (collectFixedAnglesAux (d + 1) (items.drop d))) := by
  have htl : (items.take d).length = d := by
    rw [List.length_take]
    omega
  rw [collectFixedAngles, List.append_assoc,
    collectFixedAnglesAux_append (items.take d) ([x] ++ items.drop d) 0,
    Nat.zero_add, htl, collectFixedAnglesAux_append [x] (items.drop d) d,
    List.length_singleton, nudge_append, nudge_append, normalize_append,
    normalize_append, List.append_assoc]

theorem computeItemAngles_congr (items1 items2 : List Item) (pa : Option ℚ)
    (hlen : items1.length = items2.length)
    (hfa : processedFixedAngles items1 pa = processedFixedAngles items2 pa) :
    computeItemAngles items1 pa = computeItemAngles items2 pa := by
  simp only [computeItemAngles, hlen, hfa]

/-! ## Claim C7 (amended): the drag round-trip under the no-collision proviso -/

/-- Claim C7 (amended): for every item list, optional parent angle, and drop
index `d ∈ [0, N]`, if `computeItemAnglesDnD(items, parentAngle, d)` reports
a drop angle that does not collide with the parent angle (differs by at
least `1/10000` degrees), then inserting at index `d` a real item whose
fixed angle equals that drop angle and re-running `computeItemAngles` on
the augmented list yields the drop angle again as the angle of the inserted
item.  (Without the proviso the collision nudge moves the inserted fixed
angle by `+0.1`, see the counterexample.) -/
theorem c7_round_trip (items : List Item) (pa : Option ℚ) (d : ℕ) (α : ℚ)
    (hd : d ≤ items.length)
    (hdrop : (computeItemAnglesDnD items pa (some d)).2 = some α)
    (hcol : ∀ p, pa = some p → 1 / 10000 ≤ |α - p|) :
    (computeItemAngles (items.take d ++ [some α] ++ items.drop d) pa).getD d none
      = some α := by
  have hL : (computeItemAngles (items.take d ++ [none] ++ items.drop d) pa)[d]?
      = some (some α) := by
    simp only [computeItemAnglesDnD] at hdrop
    rw [Option.join_eq_some, List.get?_eq_getElem?] at hdrop
    exact hdrop
  obtain ⟨hα0, hα1⟩ := computeItemAngles_inRange _ pa d α hL
  have hP1 : normalizeFixedAngles (nudgeFixedAngles pa
      (collectFixedAngles (items.take d ++ [none] ++ items.drop d))) =
      normalizeFixedAngles (nudgeFixedAngles pa (collectFixedAnglesAux 0 (items.take d)))
      ++ normalizeFixedAngles (nudgeFixedAngles pa
          (collectFixedAnglesAux (d + 1) (items.drop d))) := by
    rw [processed_insert items pa d none hd]
    have hmid : collectFixedAnglesAux d [(none : Item)] = [] := rfl
    rw [hmid]
    have hnil : normalizeFixedAngles (nudgeFixedAngles pa []) = [] := by
      rcases pa with _ | p <;> rfl
    rw [hnil, List.append_nil]
  have hP2 : normalizeFixedAngles (nudgeFixedAngles pa
      (collectFixedAngles (items.take d ++ [some α] ++ items.drop d))) =
      normalizeFixedAngles (nudgeFixedAngles pa (collectFixedAnglesAux 0 (items.take d)))
      ++ (α, d) ::
        normalizeFixedAngles (nudgeFixedAngles pa
          (collectFixedAnglesAux (d + 1) (items.drop d))) := by
    rw [processed_insert items pa d (some α) hd]
    have hmid : collectFixedAnglesAux d [(some α : Item)] = [(α, d)] := by
      rw [collectFixedAnglesAux, if_pos hα0]
      rfl
    rw [hmid, nudge_cons_of_far pa (α, d) [] (fun p hp => hcol p hp)]
    have hnil : nudgeFixedAngles pa ([] : List (ℚ × ℕ)) = [] := by
      rcases pa with _ | p <;> rfl
    rw [hnil, normalize_cons]
    have hself : jsMod (α, d).1 360 = α := jsMod_eq_self hα0 hα1
    rw [hself, List.append_assoc]
    rfl
  by_cases hmem : (α, d) ∈
      processedFixedAngles (items.take d ++ [some α] ++ items.drop d) pa
  · have h := computeItemAngles_fixed _ pa α d hmem
    rw [List.getD_eq_getElem?_getD, h]
    rfl
  · have hmem' : (α, d) ∉ pruneFixedAngles
        (normalizeFixedAngles (nudgeFixedAngles pa (collectFixedAnglesAux 0 (items.take d)))
        ++ (α, d) ::
          normalizeFixedAngles (nudgeFixedAngles pa
            (collectFixedAnglesAux (d + 1) (items.drop d)))) := by
      rw [processedFixedAngles, hP2] at hmem
      exact hmem
    have hprune : processedFixedAngles (items.take d ++ [some α] ++ items.drop d) pa =
        processedFixedAngles (items.take d ++ [none] ++ items.drop d) pa := by
      rw [processedFixedAngles, processedFixedAngles, hP1, hP2]
      exact prune_insert_not_mem _ _ _ hmem'
    have hlen : (items.take d ++ [some α] ++ items.drop d).length =
        (items.take d ++ [none] ++ items.drop d).length := by
      simp [List.length_append]
    have heq := computeItemAngles_congr _ _ pa hlen hprune
    rw [List.getD_eq_getElem?_getD, heq, hL]
    rfl

/-- Claim C7 (witness): the amended round trip evaluated on a concrete
2-item menu with a fixed angle at 350° and a drop at the end. -/
theorem c7_round_trip_witness :
    (computeItemAngles ([some 350, none].take 2 ++ [some 230] ++ [some 350, none].drop 2)
        (none : Option ℚ)).getD 2 none = some 230 :=
  c7_round_trip [some 350, none] none 2 230 (by norm_num) (by decide)
    (fun p hp => Option.noConfusion hp)

/-! ## Generic interval-bracketing lemmas for increasing boundary sequences -/

theorem exists_bracket :
    ∀ (N : ℕ) (h : ℕ → ℚ) (q : ℚ),
      (∀ r, r < N → h r < h (r + 1)) → h 0 < q → q ≤ h N →
      ∃ r, r < N ∧ h r < q ∧ q ≤ h (r + 1) := by
  intro N
  induction N with
  | zero =>
      intro h q _ h0 h1
      exact absurd (lt_of_lt_of_le h0 h1) (lt_irrefl _)
  | succ N ih =>
      intro h q hmono h0 h1
      by_cases hc : q ≤ h N
      · obtain ⟨r, hr, ha, hb⟩ := ih h q (fun r hr => hmono r (by omega)) h0 hc
        exact ⟨r, by omega, ha, hb⟩
      · exact ⟨N, by omega, by linarith, h1⟩

theorem bracket_mono_le (N : ℕ) (h : ℕ → ℚ)
    (hmono : ∀ r, r < N → h r < h (r + 1)) :
    ∀ k i, i + k ≤ N → h i ≤ h (i + k) := by
  intro k
  induction k with
  | zero => intro i _; exact le_refl _
  | succ k ih =>
      intro i hik
      calc h i ≤ h (i + k) := ih i (by omega)
        _ ≤ h (i + k + 1) := le_of_lt (hmono (i + k) (by omega))

theorem bracket_le_of_le (N : ℕ) (h : ℕ → ℚ)
    (hmono : ∀ r, r < N → h r < h (r + 1))
    {i j : ℕ} (hij : i ≤ j) (hj : j ≤ N) : h i ≤ h j := by
  have := bracket_mono_le N h hmono (j - i) i (by omega)
  have he : i + (j - i) = j := by omega
  rw [he] at this
  exact this

theorem bracket_unique (N : ℕ) (h : ℕ → ℚ)
    (hmono : ∀ r, r < N → h r < h (r + 1)) (q : ℚ)
    {r1 r2 : ℕ} (hr1 : r1 < N) (hr2 : r2 < N)
    (h1 : h r1 < q ∧ q ≤ h (r1 + 1)) (h2 : h r2 < q ∧ q ≤ h (r2 + 1)) :
    r1 = r2 := by
  by_contra hne
  rcases lt_or_gt_of_ne hne with hlt | hlt
  · have : h (r1 + 1) ≤ h r2 := bracket_le_of_le N h hmono (by omega) (by omega)
    linarith [h1.2, h2.1]
  · have : h (r2 + 1) ≤ h r1 := bracket_le_of_le N h hmono (by omega) (by omega)
    linarith [h1.1, h2.2]

/-- At most one multiple-of-360 shift of a value lies in a half-open window
of width exactly 360. -/
theorem window_shift_unique {W q1 q2 : ℚ} (hq1 : W < q1 ∧ q1 ≤ W + 360)
    (hq2 : W < q2 ∧ q2 ≤ W + 360) (k : ℚ)
    (hk : k = 360 ∨ k = 720 ∨ k = -360 ∨ k = -720) (he : q2 = q1 + k) :
    False := by
  rcases hk with rfl | rfl | rfl | rfl <;> linarith [hq1.1, hq1.2, hq2.1, hq2.2]

/-! ## `isAngleBetween` as a shifted-interval membership -/

theorem isAngleBetween_iff (p s e : ℚ) :
    isAngleBetween p s e = true ↔
      (s < p ∧ p ≤ e) ∨ (s < p - 360 ∧ p - 360 ≤ e) ∨ (s < p + 360 ∧ p + 360 ≤ e) := by
  rw [isAngleBetween]
  simp only [Bool.or_eq_true, Bool.and_eq_true, decide_eq_true_eq]
  constructor
  · rintro ((⟨h1, h2⟩ | ⟨h1, h2⟩) | ⟨h1, h2⟩)
    · exact Or.inl ⟨h1, h2⟩
    · exact Or.inr (Or.inl ⟨h1, h2⟩)
    · exact Or.inr (Or.inr ⟨h1, h2⟩)
  · rintro (⟨h1, h2⟩ | ⟨h1, h2⟩ | ⟨h1, h2⟩)
    · exact Or.inl (Or.inl ⟨h1, h2⟩)
    · exact Or.inl (Or.inr ⟨h1, h2⟩)
    · exact Or.inr ⟨h1, h2⟩

/-! ## Sorted angle lists and their midpoint separators -/

theorem getD0_mem {l : List ℚ} {i : ℕ} (hi : i < l.length) : l.getD i 0 ∈ l := by
  rw [List.getD_eq_getElem _ _ hi]
  exact List.getElem_mem hi

theorem sorted_getD_lt {l : List ℚ} (h : l.Pairwise (· < ·)) {i j : ℕ}
    (hij : i < j) (hj : j < l.length) : l.getD i 0 < l.getD j 0 := by
  have hi : i < l.length := lt_trans hij hj
  have hg := List.pairwise_iff_get.mp h ⟨i, hi⟩ ⟨j, hj⟩ hij
  rw [List.getD_eq_getElem _ _ hi, List.getD_eq_getElem _ _ hj]
  exact hg

theorem sorted_getD_le {l : List ℚ} (h : l.Pairwise (· < ·)) {i j : ℕ}
    (hij : i ≤ j) (hj : j < l.length) : l.getD i 0 ≤ l.getD j 0 := by
  rcases lt_or_eq_of_le hij with hc | hc
  · exact le_of_lt (sorted_getD_lt h hc hj)
  · rw [hc]

theorem midAngles_strict (l : List ℚ) (hsort : l.Pairwise (· < ·))
    (hrange : ∀ a ∈ l, 0 ≤ a ∧ a < 360) :
    ∀ r, r + 1 < l.length → midAngles l r < midAngles l (r + 1) := by
  intro r hr
  by_cases hlast : r + 1 = l.length - 1
  · rw [midAngles, midAngles, if_neg (by omega), if_pos hlast]
    have h1 : l.getD r 0 < 360 := (hrange _ (getD0_mem (by omega))).2
    have h2 : (0:ℚ) ≤ l.getD 0 0 := (hrange _ (getD0_mem (by omega))).1
    linarith
  · rw [midAngles, midAngles, if_neg (by omega), if_neg hlast]
    have h1 : l.getD r 0 < l.getD (r + 2) 0 := sorted_getD_lt hsort (by omega) (by omega)
    have he : r + 1 + 1 = r + 2 := by omega
    rw [he]
    linarith

theorem midAngles_wrap_lt (l : List ℚ)
    (hrange : ∀ a ∈ l, 0 ≤ a ∧ a < 360) (hn : 2 ≤ l.length) :
    midAngles l (l.length - 1) < midAngles l 0 + 360 := by
  rw [midAngles, midAngles, if_pos rfl, if_neg (by omega)]
  have h1 : l.getD (l.length - 1) 0 < 360 := (hrange _ (getD0_mem (by omega))).2
  have h2 : (0:ℚ) ≤ l.getD 1 0 := (hrange _ (getD0_mem (by omega))).1
  linarith

theorem midAngles_zero_bounds (l : List ℚ) (hsort : l.Pairwise (· < ·))
    (hrange : ∀ a ∈ l, 0 ≤ a ∧ a < 360) (hn : 2 ≤ l.length) :
    0 < midAngles l 0 ∧ midAngles l 0 < 360 := by
  rw [midAngles, if_neg (by omega)]
  have h0 := hrange _ (getD0_mem (by omega : 0 < l.length))
  have h1 := hrange _ (getD0_mem (by omega : 1 < l.length))
  have hlt : l.getD 0 0 < l.getD 1 0 := sorted_getD_lt hsort (by omega) (by omega)
  constructor <;> linarith

theorem midAngles_last_bounds (l : List ℚ)
    (hrange : ∀ a ∈ l, 0 ≤ a ∧ a < 360) (hn : 2 ≤ l.length) :
    180 ≤ midAngles l (l.length - 1) ∧ midAngles l (l.length - 1) < 540 := by
  rw [midAngles, if_pos rfl]
  have h0 := hrange _ (getD0_mem (by omega : 0 < l.length))
  have h1 := hrange _ (getD0_mem (by omega : l.length - 1 < l.length))
  constructor <;> linarith [h0.1, h0.2, h1.1, h1.2]

theorem midAngles_gt_self (l : List ℚ) (hsort : l.Pairwise (· < ·))
    (hrange : ∀ a ∈ l, 0 ≤ a ∧ a < 360) (hn : 2 ≤ l.length)
    {r : ℕ} (hr : r < l.length) : l.getD r 0 < midAngles l r := by
  by_cases hlast : r = l.length - 1
  · rw [midAngles, if_pos hlast]
    have h0 := hrange _ (getD0_mem (by omega : 0 < l.length))
    have h1 := hrange _ (getD0_mem hr)
    linarith [h0.1, h1.2]
  · rw [midAngles, if_neg hlast]
    have hlt : l.getD r 0 < l.getD (r + 1) 0 := sorted_getD_lt hsort (by omega) (by omega)
    linarith

theorem midAngles_prev_lt_self (l : List ℚ) (hsort : l.Pairwise (· < ·))
    (hrange : ∀ a ∈ l, 0 ≤ a ∧ a < 360) (hn : 2 ≤ l.length)
    {r : ℕ} (hr1 : 1 ≤ r) (hr : r < l.length) :
    midAngles l (r - 1) < l.getD r 0 := by
  have hne : r - 1 ≠ l.length - 1 := by omega
  rw [midAngles, if_neg hne]
  have he : r - 1 + 1 = r := by omega
  rw [he]
  have hlt : l.getD (r - 1) 0 < l.getD r 0 := sorted_getD_lt hsort (by omega) hr
  linarith

/-! ## Drop zones over a sorted angle list -/

theorem dropZone_interior (l : List ℚ) (hsort : l.Pairwise (· < ·))
    (hrange : ∀ a ∈ l, 0 ≤ a ∧ a < 360) (hn : 2 ≤ l.length) (p : ℚ)
    (i : ℕ) (h1 : 1 ≤ i) (h2 : i < l.length) :
    dropZoneMatches l p i =
      isAngleBetween p (midAngles l (i - 1)) (midAngles l i) := by
  have hidx1 : (i + l.length - 1) % l.length = i - 1 := by
    have he : i + l.length - 1 = l.length + (i - 1) := by omega
    rw [he, Nat.add_mod_left, Nat.mod_eq_of_lt (by omega)]
  simp only [dropZoneMatches]
  rw [hidx1]
  have hws : l.getD (i - 1) 0 ≤ l.getD i 0 :=
    le_of_lt (sorted_getD_lt hsort (by omega) h2)
  rw [if_neg (not_lt.mpr hws)]
  by_cases hlast : i = l.length - 1
  · have hidx2 : (i + 1) % l.length = 0 := by
      have he : i + 1 = l.length := by omega
      rw [he, Nat.mod_self]
    rw [hidx2]
    have hbump : l.getD 0 0 < l.getD i 0 := sorted_getD_lt hsort (by omega) h2
    rw [if_pos hbump]
    congr 1
    · rw [midAngles, if_neg (by omega)]
      have he : i - 1 + 1 = i := by omega
      rw [he]
      ring
    · rw [midAngles, if_pos hlast]
      ring
  · have hidx2 : (i + 1) % l.length = i + 1 := Nat.mod_eq_of_lt (by omega)
    rw [hidx2]
    have hnb : l.getD i 0 ≤ l.getD (i + 1) 0 :=
      le_of_lt (sorted_getD_lt hsort (by omega) (by omega))
    rw [if_neg (not_lt.mpr hnb)]
    congr 1
    · rw [midAngles, if_neg (by omega)]
      have he : i - 1 + 1 = i := by omega
      rw [he]
      ring
    · rw [midAngles, if_neg hlast]
      ring

theorem dropZone_zero (l : List ℚ) (hsort : l.Pairwise (· < ·))
    (hrange : ∀ a ∈ l, 0 ≤ a ∧ a < 360) (hn : 2 ≤ l.length) (p : ℚ) :
    dropZoneMatches l p 0 =
      isAngleBetween p (midAngles l (l.length - 1)) (midAngles l 0 + 360) := by
  have hidx1 : (0 + l.length - 1) % l.length = l.length - 1 := by
    have he : 0 + l.length - 1 = l.length - 1 := by omega
    rw [he, Nat.mod_eq_of_lt (by omega)]
  simp only [dropZoneMatches]
  rw [hidx1]
  have hb : l.getD 0 0 < l.getD (l.length - 1) 0 :=
    sorted_getD_lt hsort (by omega) (by omega)
  rw [if_pos hb]
  have hidx2 : (0 + 1) % l.length = 1 := by
    have he : 0 + 1 = 1 := by omega
    rw [he, Nat.mod_eq_of_lt (by omega)]
  rw [hidx2]
  have hbump : l.getD 1 0 < l.getD 0 0 + 360 := by
    have ha := (hrange _ (getD0_mem (by omega : 1 < l.length))).2
    have hb0 := (hrange _ (getD0_mem (by omega : 0 < l.length))).1
    linarith
  rw [if_pos hbump]
  congr 1
  · rw [midAngles, if_pos rfl]
    ring
  · rw [midAngles, if_neg (by omega)]
    ring

theorem isAngleBetween_shift (p s e : ℚ) :
    isAngleBetween p s e = true ↔
      ∃ k : ℚ, (k = 0 ∨ k = 360 ∨ k = -360) ∧ s < p + k ∧ p + k ≤ e := by
  rw [isAngleBetween_iff]
  constructor
  · rintro (⟨a, b⟩ | ⟨a, b⟩ | ⟨a, b⟩)
    · exact ⟨0, Or.inl rfl, by linarith, by linarith⟩
    · exact ⟨-360, Or.inr (Or.inr rfl), by linarith, by linarith⟩
    · exact ⟨360, Or.inr (Or.inl rfl), by linarith, by linarith⟩
  · rintro ⟨k, hk, a, b⟩
    rcases hk with rfl | rfl | rfl
    · exact Or.inl ⟨by linarith, by linarith⟩
    · exact Or.inr (Or.inr ⟨by linarith, by linarith⟩)
    · exact Or.inr (Or.inl ⟨by linarith, by linarith⟩)

theorem dropZone_exists_unique (l : List ℚ) (hsort : l.Pairwise (· < ·))
    (hrange : ∀ a ∈ l, 0 ≤ a ∧ a < 360) (hn : 2 ≤ l.length) (p : ℚ)
    (hp0 : 0 ≤ p) (hp1 : p < 360) :
    ∃! z : ℕ, z < l.length ∧ dropZoneMatches l p z = true := by
  have hmono : ∀ r, r < l.length →
      (if r < l.length then midAngles l r else midAngles l 0 + 360) <
      (if r + 1 < l.length then midAngles l (r + 1) else midAngles l 0 + 360) := by
    intro r hr
    by_cases hr1 : r + 1 < l.length
    · rw [if_pos hr, if_pos hr1]
      exact midAngles_strict l hsort hrange r hr1
    · have hre : r = l.length - 1 := by omega
      rw [if_pos hr, if_neg hr1, hre]
      exact midAngles_wrap_lt l hrange hn
  set H : ℕ → ℚ :=
    fun r => if r < l.length then midAngles l r else midAngles l 0 + 360 with hH
  have hH0 : H 0 = midAngles l 0 := if_pos (by omega)
  have hHn : H l.length = midAngles l 0 + 360 := if_neg (by omega)
  obtain ⟨hm0pos, hm0lt⟩ := midAngles_zero_bounds l hsort hrange hn
  have hzone : ∀ z, z < l.length →
      (dropZoneMatches l p z = true ↔
        ∃ k : ℚ, (k = 0 ∨ k = 360 ∨ k = -360) ∧
          H (if z = 0 then l.length - 1 else z - 1) < p + k ∧
          p + k ≤ H ((if z = 0 then l.length - 1 else z - 1) + 1)) := by
    intro z hz
    by_cases hz0 : z = 0
    · subst hz0
      rw [if_pos rfl]
      have he1 : H (l.length - 1) = midAngles l (l.length - 1) := if_pos (by omega)
      have he2 : H (l.length - 1 + 1) = midAngles l 0 + 360 := by
        have he : l.length - 1 + 1 = l.length := by omega
        rw [he, hHn]
      rw [he1, he2, dropZone_zero l hsort hrange hn p]
      exact isAngleBetween_shift p _ _
    · rw [if_neg hz0]
      have he1 : H (z - 1) = midAngles l (z - 1) := if_pos (by omega)
      have he2 : H (z - 1 + 1) = midAngles l z := by
        have he : z - 1 + 1 = z := by omega
        rw [he]
        exact if_pos hz
      rw [he1, he2, dropZone_interior l hsort hrange hn p z (by omega) hz]
      exact isAngleBetween_shift p _ _
  -- existence: bracket the unique window representative of `p`
  have hex : ∃ z, z < l.length ∧ dropZoneMatches l p z = true := by
    obtain ⟨q, k, hkval, hqe, hq0, hq1⟩ :
        ∃ q k : ℚ, (k = 0 ∨ k = 360 ∨ k = -360) ∧ q = p + k ∧
          H 0 < q ∧ q ≤ H l.length := by
      by_cases hc : midAngles l 0 < p
      · exact ⟨p, 0, Or.inl rfl, by ring, by rw [hH0]; exact hc,
          by rw [hHn]; linarith⟩
      · exact ⟨p + 360, 360, Or.inr (Or.inl rfl), rfl,
          by rw [hH0]; linarith, by rw [hHn]; linarith⟩
    obtain ⟨r, hr, hbr1, hbr2⟩ := exists_bracket l.length H q hmono hq0 hq1
    refine ⟨if r = l.length - 1 then 0 else r + 1, ?_, ?_⟩
    · split <;> omega
    · have hridx : (if (if r = l.length - 1 then 0 else r + 1) = 0
          then l.length - 1 else (if r = l.length - 1 then 0 else r + 1) - 1) = r := by
        by_cases hc : r = l.length - 1
        · rw [if_pos hc, if_pos rfl]
          omega
        · rw [if_neg hc, if_neg (by omega)]
          omega
      rw [hzone _ (by split <;> omega), hridx]
      exact ⟨k, hkval, by rw [← hqe]; exact hbr1, by rw [← hqe]; exact hbr2⟩
  obtain ⟨z₀, hz₀, hm₀⟩ := hex
  refine ⟨z₀, ⟨hz₀, hm₀⟩, ?_⟩
  -- uniqueness
  have huniq : ∀ z1 z2, z1 < l.length → z2 < l.length →
      dropZoneMatches l p z1 = true → dropZoneMatches l p z2 = true → z1 = z2 := by
    intro z1 z2 hz1 hz2 hm1 hm2
    obtain ⟨k1, hk1, ha1, hb1⟩ := (hzone z1 hz1).mp hm1
    obtain ⟨k2, hk2, ha2, hb2⟩ := (hzone z2 hz2).mp hm2
    set r1 := if z1 = 0 then l.length - 1 else z1 - 1 with hr1_def
    set r2 := if z2 = 0 then l.length - 1 else z2 - 1 with hr2_def
    have hr1 : r1 < l.length := by rw [hr1_def]; split <;> omega
    have hr2 : r2 < l.length := by rw [hr2_def]; split <;> omega
    -- both shifted representatives lie in the same width-360 window
    have hw1 : H 0 < p + k1 ∧ p + k1 ≤ H 0 + 360 := by
      constructor
      · calc H 0 ≤ H r1 := bracket_le_of_le l.length H hmono (by omega) (by omega)
          _ < p + k1 := ha1
      · calc p + k1 ≤ H (r1 + 1) := hb1
          _ ≤ H l.length := bracket_le_of_le l.length H hmono (by omega) (le_refl _)
          _ = H 0 + 360 := by rw [hHn, hH0]
    have hw2 : H 0 < p + k2 ∧ p + k2 ≤ H 0 + 360 := by
      constructor
      · calc H 0 ≤ H r2 := bracket_le_of_le l.length H hmono (by omega) (by omega)
          _ < p + k2 := ha2
      · calc p + k2 ≤ H (r2 + 1) := hb2
          _ ≤ H l.length := bracket_le_of_le l.length H hmono (by omega) (le_refl _)
          _ = H 0 + 360 := by rw [hHn, hH0]
    have hkk : k1 = k2 := by
      rcases hk1 with rfl | rfl | rfl <;> rcases hk2 with rfl | rfl | rfl <;>
        first
          | rfl
          | (exfalso; linarith [hw1.1, hw1.2, hw2.1, hw2.2])
    rw [← hkk] at ha2 hb2
    have hre : r1 = r2 :=
      bracket_unique l.length H hmono (p + k1) hr1 hr2 ⟨ha1, hb1⟩ ⟨ha2, hb2⟩
    rw [hr1_def, hr2_def] at hre
    by_cases hc1 : z1 = 0 <;> by_cases hc2 : z2 = 0 <;>
      simp only [hc1, hc2, if_pos, if_neg, if_true, if_false] at hre <;> omega
  intro z hz
  exact huniq z z₀ hz.1 hz₀ hz.2 hm₀

/-! ## Claim C4: drop-index totality -/

/-- Claim C4: for every correctly-formed list of N ≥ 1 item angles (sorted
ascending, pairwise distinct, in `[0, 360)`) and every pointer angle in
`[0, 360)`, `computeDropIndex` returns an integer in `[0, N]`; in
particular, for N ≥ 2 exactly one drop zone matches the pointer angle, so
the fall-through past the loop (modelled by `none`) is unreachable. -/
theorem c4_drop_totality (l : List ℚ) (p : ℚ)
    (hsort : l.Pairwise (· < ·)) (hrange : ∀ a ∈ l, 0 ≤ a ∧ a < 360)
    (hn : 1 ≤ l.length) (hp0 : 0 ≤ p) (hp1 : p < 360) :
    (∃ i : ℕ, computeDropIndex l p = some i ∧ i ≤ l.length) ∧
    (2 ≤ l.length → ∃! i : ℕ, i < l.length ∧ dropZoneMatches l p i = true) := by
  by_cases h1 : l.length = 1
  · constructor
    · rw [computeDropIndex, if_neg (by omega), if_pos h1]
      refine ⟨_, rfl, ?_⟩
      split <;> omega
    · intro h2
      omega
  · have hn2 : 2 ≤ l.length := by omega
    have hEU := dropZone_exists_unique l hsort hrange hn2 p hp0 hp1
    constructor
    · rw [computeDropIndex, if_neg (by omega), if_neg h1]
      obtain ⟨z, ⟨hz, hm⟩, _⟩ := hEU
      have hsome : ((List.range l.length).find? (dropZoneMatches l p)).isSome = true := by
        rw [List.find?_isSome]
        exact ⟨z, List.mem_range.mpr hz, hm⟩
      obtain ⟨i, hi⟩ := Option.isSome_iff_exists.mp hsome
      refine ⟨i, hi, ?_⟩
      have hmem := List.mem_range.mp (List.mem_of_find?_eq_some hi)
      omega
    · intro _
      exact hEU

/-- Claim C4 (witness): totality evaluated at the specification's example
(four cardinal angles, pointer at 50°). -/
theorem c4_drop_totality_witness :
    ∃ i : ℕ, computeDropIndex [0, 90, 180, 270] 50 = some i ∧ i ≤ 4 :=
  (c4_drop_totality [0, 90, 180, 270] 50 (by decide) (by decide)
    (by decide) (by decide) (by decide)).1

/-! ## The separator list of `computeItemWedges` -/

theorem computeSeparators_length (l : List ℚ) :
    (computeSeparators l).length = l.length := by
  rw [computeSeparators, List.length_map, List.length_range]

theorem computeSeparators_getD (l : List ℚ) (i : ℕ) (hi : i < l.length) :
    (computeSeparators l).getD i 0 = midAngles l i := by
  rw [List.getD_eq_getElem _ _ (by rw [computeSeparators_length]; exact hi)]
  simp only [computeSeparators, List.getElem_map, List.getElem_range, midAngles]

theorem findIdx?_eq_some_of_first :
    ∀ (L : List ℚ) (pred : ℚ → Bool) (i₀ i : ℕ), i < L.length →
      (∀ j, j < i → pred (L.getD j 0) = false) →
      pred (L.getD i 0) = true →
      L.findIdx? pred i₀ = some (i₀ + i) := by
  intro L
  induction L with
  | nil =>
      intro pred i₀ i hi
      rw [List.length_nil] at hi
      omega
  | cons x t ih =>
      intro pred i₀ i hi hfalse htrue
      rw [List.findIdx?_cons]
      rcases Nat.eq_zero_or_pos i with rfl | hpos
      · rw [List.getD_cons_zero] at htrue
        rw [if_pos htrue, Nat.add_zero]
      · have hx : pred x = false := by
          have h0 := hfalse 0 hpos
          rw [List.getD_cons_zero] at h0
          exact h0
        rw [if_neg (by rw [hx]; exact Bool.false_ne_true)]
        have htrue' : pred (t.getD (i - 1) 0) = true := by
          rw [(by omega : i = i - 1 + 1), List.getD_cons_succ] at htrue
          exact htrue
        have hrec := ih pred (i₀ + 1) (i - 1)
          (by rw [List.length_cons] at hi; omega)
          (fun j hj => by
            have hfj := hfalse (j + 1) (by omega)
            rw [List.getD_cons_succ] at hfj
            exact hfj)
          htrue'
        rw [hrec]
        congr 1
        omega

theorem separators_findIdx (s : List ℚ) (hsort : s.Pairwise (· < ·))
    (hrange : ∀ a ∈ s, 0 ≤ a ∧ a < 360) (hn : 2 ≤ s.length)
    (r : ℕ) (hr : r < s.length) :
    (computeSeparators s).findIdx? (fun x => decide (x > s.getD r 0)) 0 = some r := by
  have h := findIdx?_eq_some_of_first (computeSeparators s)
    (fun x => decide (x > s.getD r 0)) 0 r
    (by rw [computeSeparators_length]; exact hr)
    (fun j hj => by
      have hr1 : 1 ≤ r := by omega
      rw [computeSeparators_getD s j (by omega)]
      have hle : midAngles s j ≤ midAngles s (r - 1) :=
        bracket_le_of_le (s.length - 1) (midAngles s)
          (fun t ht => midAngles_strict s hsort hrange t (by omega))
          (by omega) (by omega)
      have hlt : midAngles s (r - 1) < s.getD r 0 :=
        midAngles_prev_lt_self s hsort hrange hn hr1 hr
      simp only [decide_eq_false_iff_not, not_lt]
      linarith)
    (by
      rw [computeSeparators_getD s r hr]
      simp only [decide_eq_true_eq]
      exact midAngles_gt_self s hsort hrange hn hr)
  rw [Nat.zero_add] at h
  exact h

/-! ## Shift characterization of wedge membership -/

theorem wedgeContains_of_shift {x s e k : ℚ} (hk : k = 0 ∨ k = 360 ∨ k = -360)
    (h1 : s < x + k) (h2 : x + k ≤ e) : wedgeContains ⟨s, e⟩ x := by
  rw [wedgeContains]
  rcases hk with rfl | rfl | rfl
  · exact Or.inl ⟨by linarith, by linarith⟩
  · exact Or.inr (Or.inr ⟨by linarith, by linarith⟩)
  · exact Or.inr (Or.inl ⟨by linarith, by linarith⟩)

theorem wedgeContains_shift {w : Wedge} {x : ℚ} (h : wedgeContains w x) :
    ∃ k : ℚ, (k = 0 ∨ k = 360 ∨ k = -360) ∧ w.start < x + k ∧ x + k ≤ w.«end» := by
  rcases h with ⟨h1, h2⟩ | ⟨h1, h2⟩ | ⟨h1, h2⟩
  · exact ⟨0, Or.inl rfl, by linarith, by linarith⟩
  · exact ⟨-360, Or.inr (Or.inr rfl), by linarith, by linarith⟩
  · exact ⟨360, Or.inr (Or.inl rfl), by linarith, by linarith⟩

theorem wedgeContainsStrict_imp {w : Wedge} {x : ℚ}
    (h : wedgeContainsStrict w x) : wedgeContains w x := by
  rcases h with ⟨h1, h2⟩ | ⟨h1, h2⟩ | ⟨h1, h2⟩
  · exact Or.inl ⟨h1, le_of_lt h2⟩
  · exact Or.inr (Or.inl ⟨h1, le_of_lt h2⟩)
  · exact Or.inr (Or.inr ⟨h1, le_of_lt h2⟩)

/-! ## The wedge list without a parent angle -/

theorem computeItemWedges_none_eq (l : List ℚ) (hn2 : 2 ≤ l.length) :
    computeItemWedges l none = l.map (fun a =>
      match (computeSeparators (l.insertionSort (· ≤ ·))).findIdx?
          (fun x => decide (x > a)) 0 with
      | some wedgeIndex =>
          { start := if wedgeIndex = 0
              then (computeSeparators (l.insertionSort (· ≤ ·))).getD
                ((computeSeparators (l.insertionSort (· ≤ ·))).length - 1) 0 - 360
              else (computeSeparators (l.insertionSort (· ≤ ·))).getD (wedgeIndex - 1) 0,
            «end» := (computeSeparators (l.insertionSort (· ≤ ·))).getD wedgeIndex 0 }
      | none => (⟨0, 0⟩ : Wedge)) := by
  rw [computeItemWedges, if_neg (by omega), if_neg (fun h => absurd h.1 (by omega))]
  dsimp only
  rw [List.append_nil]

theorem computeItemWedges_none_length (l : List ℚ) (hn2 : 2 ≤ l.length) :
    (computeItemWedges l none).length = l.length := by
  rw [computeItemWedges_none_eq l hn2, List.length_map]

theorem computeItemWedges_none_getD (l : List ℚ) (hn2 : 2 ≤ l.length)
    (hsort : (l.insertionSort (· ≤ ·)).Pairwise (· < ·))
    (hrange : ∀ a ∈ l.insertionSort (· ≤ ·), 0 ≤ a ∧ a < 360)
    (i : ℕ) (hi : i < l.length) (r : ℕ)
    (hr : r < (l.insertionSort (· ≤ ·)).length)
    (hra : (l.insertionSort (· ≤ ·)).getD r 0 = l.getD i 0) :
    (computeItemWedges l none).getD i ⟨0, 0⟩ =
      ⟨if r = 0
        then midAngles (l.insertionSort (· ≤ ·))
          ((l.insertionSort (· ≤ ·)).length - 1) - 360
        else midAngles (l.insertionSort (· ≤ ·)) (r - 1),
       midAngles (l.insertionSort (· ≤ ·)) r⟩ := by
  have hslen : (l.insertionSort (· ≤ ·)).length = l.length :=
    List.length_insertionSort _ l
  rw [computeItemWedges_none_eq l hn2,
    List.getD_eq_getElem _ _ (by rw [List.length_map]; exact hi), List.getElem_map]
  have hgi : l[i] = l.getD i 0 := (List.getD_eq_getElem l 0 hi).symm
  have hfi : (computeSeparators (l.insertionSort (· ≤ ·))).findIdx?
      (fun x => decide (x > l[i])) 0 = some r := by
    rw [hgi, ← hra]
    exact separators_findIdx _ hsort hrange (by omega) r hr
  rw [hfi]
  have hstart : (if r = 0
      then (computeSeparators (l.insertionSort (· ≤ ·))).getD
        ((computeSeparators (l.insertionSort (· ≤ ·))).length - 1) 0 - 360
      else (computeSeparators (l.insertionSort (· ≤ ·))).getD (r - 1) 0) =
      (if r = 0
        then midAngles (l.insertionSort (· ≤ ·))
          ((l.insertionSort (· ≤ ·)).length - 1) - 360
        else midAngles (l.insertionSort (· ≤ ·)) (r - 1)) := by
    rw [computeSeparators_length]
    by_cases h0 : r = 0
    · rw [if_pos h0, if_pos h0, computeSeparators_getD _ _ (by omega)]
    · rw [if_neg h0, if_neg h0, computeSeparators_getD _ _ (by omega)]
  have hend : (computeSeparators (l.insertionSort (· ≤ ·))).getD r 0 =
      midAngles (l.insertionSort (· ≤ ·)) r :=
    computeSeparators_getD _ r (by omega)
  dsimp only
  rw [hstart, hend]

theorem wedgeBound_succ (s : List ℚ) (r : ℕ) :
    wedgeBound s (r + 1) = midAngles s r := by
  rw [wedgeBound, if_neg (by omega), Nat.add_sub_cancel]

theorem wedgeBound_mono (s : List ℚ) (hsort : s.Pairwise (· < ·))
    (hrange : ∀ a ∈ s, 0 ≤ a ∧ a < 360) (hn : 2 ≤ s.length) :
    ∀ t, t < s.length → wedgeBound s t < wedgeBound s (t + 1) := by
  intro t ht
  rw [wedgeBound_succ]
  by_cases h0 : t = 0
  · rw [wedgeBound, if_pos h0, h0]
    have hw := midAngles_wrap_lt s hrange hn
    linarith
  · rw [wedgeBound, if_neg h0]
    have hs := midAngles_strict s hsort hrange (t - 1) (by omega)
    have he : t - 1 + 1 = t := by omega
    rw [he] at hs
    exact hs

theorem wedgeBound_zero (s : List ℚ) :
    wedgeBound s 0 = midAngles s (s.length - 1) - 360 := if_pos rfl

theorem wedgeBound_top (s : List ℚ) (hn : 2 ≤ s.length) :
    wedgeBound s s.length = midAngles s (s.length - 1) := by
  rw [wedgeBound, if_neg (by omega)]

theorem computeItemWedges_none_getD_bound (l : List ℚ) (hn2 : 2 ≤ l.length)
    (hsort : (l.insertionSort (· ≤ ·)).Pairwise (· < ·))
    (hrange : ∀ a ∈ l.insertionSort (· ≤ ·), 0 ≤ a ∧ a < 360)
    (i : ℕ) (hi : i < l.length) (r : ℕ)
    (hr : r < (l.insertionSort (· ≤ ·)).length)
    (hra : (l.insertionSort (· ≤ ·)).getD r 0 = l.getD i 0) :
    (computeItemWedges l none).getD i ⟨0, 0⟩ =
      ⟨wedgeBound (l.insertionSort (· ≤ ·)) r,
       wedgeBound (l.insertionSort (· ≤ ·)) (r + 1)⟩ := by
  rw [computeItemWedges_none_getD l hn2 hsort hrange i hi r hr hra,
    wedgeBound_succ, wedgeBound]

/-! ## Claim C3 (amended): the wedges partition the circle when no parent -/

/-- Claim C3 (amended): for every non-empty list of pairwise-distinct item
angles in `[0, 360)` and **no** parent angle, the wedges returned by
`computeItemWedges` satisfy `start < end`, every direction of the circle is
covered by exactly one wedge (after normalizing wraparound), and the wedge
interiors are pairwise disjoint.  (With a parent angle present the union
leaves a gap toward the parent, see the counterexample.) -/
theorem c3_wedge_partition (l : List ℚ)
    (hne : l ≠ []) (hnd : l.Pairwise (· ≠ ·))
    (hrange : ∀ a ∈ l, 0 ≤ a ∧ a < 360) :
    (∀ w ∈ computeItemWedges l none, w.start < w.«end») ∧
    (∀ x : ℚ, 0 ≤ x → x < 360 →
      ∃! i : ℕ, i < (computeItemWedges l none).length ∧
        wedgeContains ((computeItemWedges l none).getD i ⟨0, 0⟩) x) ∧
    (∀ x : ℚ, 0 ≤ x → x < 360 → ∀ i j : ℕ,
      i < (computeItemWedges l none).length →
      j < (computeItemWedges l none).length →
      wedgeContainsStrict ((computeItemWedges l none).getD i ⟨0, 0⟩) x →
      wedgeContainsStrict ((computeItemWedges l none).getD j ⟨0, 0⟩) x →
      i = j) := by
  have hlpos : 0 < l.length := List.length_pos.mpr hne
  by_cases h1 : l.length = 1
  · have hws : computeItemWedges l none = [⟨0, 360⟩] := by
      rw [computeItemWedges, if_neg (by omega), if_pos ⟨h1, rfl⟩]
    rw [hws]
    refine ⟨?_, ?_, ?_⟩
    · intro w hw
      rw [List.mem_singleton.mp hw]
      norm_num
    · intro x hx0 hx1
      refine ⟨0, ⟨by norm_num, ?_⟩, ?_⟩
      · show wedgeContains ⟨0, 360⟩ x
        rcases lt_or_eq_of_le hx0 with h | h
        · exact Or.inl ⟨h, le_of_lt hx1⟩
        · refine Or.inr (Or.inr ⟨?_, ?_⟩)
          · show (0 : ℚ) < x + 360
            linarith
          · show x + 360 ≤ (360 : ℚ)
            linarith
      · rintro y ⟨hy, _⟩
        rw [List.length_singleton] at hy
        omega
    · intro x _ _ i j hi hj _ _
      rw [List.length_singleton] at hi hj
      omega
  · have hn2 : 2 ≤ l.length := by omega
    set s := l.insertionSort (· ≤ ·) with hs_def
    have hperm : s.Perm l := List.perm_insertionSort _ l
    have hslen : s.length = l.length := List.length_insertionSort _ l
    have hranges : ∀ a ∈ s, 0 ≤ a ∧ a < 360 :=
      fun a ha => hrange a (hperm.mem_iff.mp ha)
    have hnds : s.Nodup := hperm.nodup_iff.mpr hnd
    have hsorts : s.Pairwise (· < ·) :=
      (List.Pairwise.and (List.sorted_insertionSort (· ≤ ·) l) hnds).imp
        (fun h => lt_of_le_of_ne h.1 h.2)
    have hsn2 : 2 ≤ s.length := by omega
    have hwslen : (computeItemWedges l none).length = l.length :=
      computeItemWedges_none_length l hn2
    have hmono := wedgeBound_mono s hsorts hranges hsn2
    have hrank : ∀ i, i < l.length → ∃ r, r < s.length ∧ s.getD r 0 = l.getD i 0 := by
      intro i hi
      have hmem : l.getD i 0 ∈ s := hperm.mem_iff.mpr (getD0_mem hi)
      obtain ⟨⟨r, hr⟩, hget⟩ := List.mem_iff_get.mp hmem
      refine ⟨r, hr, ?_⟩
      rw [List.getD_eq_getElem _ _ hr]
      exact hget
    have hW := midAngles_last_bounds s hranges hsn2
    have hwin : wedgeBound s s.length = wedgeBound s 0 + 360 := by
      rw [wedgeBound_zero, wedgeBound_top _ hsn2]
      ring
    have huniq : ∀ x : ℚ, ∀ i1 i2 : ℕ, i1 < l.length → i2 < l.length →
        wedgeContains ((computeItemWedges l none).getD i1 ⟨0, 0⟩) x →
        wedgeContains ((computeItemWedges l none).getD i2 ⟨0, 0⟩) x → i1 = i2 := by
      intro x i1 i2 hi1 hi2 hc1 hc2
      obtain ⟨r1, hr1, hra1⟩ := hrank i1 hi1
      obtain ⟨r2, hr2, hra2⟩ := hrank i2 hi2
      rw [computeItemWedges_none_getD_bound l hn2 hsorts hranges i1 hi1 r1 hr1 hra1] at hc1
      rw [computeItemWedges_none_getD_bound l hn2 hsorts hranges i2 hi2 r2 hr2 hra2] at hc2
      obtain ⟨k1, hk1, ha1, hb1⟩ := wedgeContains_shift hc1
      obtain ⟨k2, hk2, ha2, hb2⟩ := wedgeContains_shift hc2
      have hw1 : wedgeBound s 0 < x + k1 ∧ x + k1 ≤ wedgeBound s 0 + 360 := by
        constructor
        · calc wedgeBound s 0 ≤ wedgeBound s r1 :=
              bracket_le_of_le s.length (wedgeBound s) hmono (by omega) (by omega)
            _ < x + k1 := ha1
        · calc x + k1 ≤ wedgeBound s (r1 + 1) := hb1
            _ ≤ wedgeBound s s.length :=
              bracket_le_of_le s.length (wedgeBound s) hmono (by omega) (le_refl _)
            _ = wedgeBound s 0 + 360 := hwin
      have hw2 : wedgeBound s 0 < x + k2 ∧ x + k2 ≤ wedgeBound s 0 + 360 := by
        constructor
        · calc wedgeBound s 0 ≤ wedgeBound s r2 :=
              bracket_le_of_le s.length (wedgeBound s) hmono (by omega) (by omega)
            _ < x + k2 := ha2
        · calc x + k2 ≤ wedgeBound s (r2 + 1) := hb2
            _ ≤ wedgeBound s s.length :=
              bracket_le_of_le s.length (wedgeBound s) hmono (by omega) (le_refl _)
            _ = wedgeBound s 0 + 360 := hwin
      have hkk : k1 = k2 := by
        rcases hk1 with rfl | rfl | rfl <;> rcases hk2 with rfl | rfl | rfl <;>
          first
            | rfl
            | (exfalso; linarith [hw1.1, hw1.2, hw2.1, hw2.2])
      rw [← hkk] at ha2 hb2
      have hre : r1 = r2 :=
        bracket_unique s.length (wedgeBound s) hmono (x + k1) hr1 hr2 ⟨ha1, hb1⟩ ⟨ha2, hb2⟩
      have hgd : l.getD i1 0 = l.getD i2 0 := by
        rw [← hra1, ← hra2, hre]
      have hget : l.get ⟨i1, hi1⟩ = l.get ⟨i2, hi2⟩ := by
        have e1 : l.get ⟨i1, hi1⟩ = l.getD i1 0 := (List.getD_eq_getElem l 0 hi1).symm
        have e2 : l.get ⟨i2, hi2⟩ = l.getD i2 0 := (List.getD_eq_getElem l 0 hi2).symm
        rw [e1, e2, hgd]
      have := (List.Nodup.get_inj_iff hnd).mp hget
      simpa using this
    refine ⟨?_, ?_, ?_⟩
    · intro w hw
      obtain ⟨⟨i, hiw⟩, hget⟩ := List.mem_iff_get.mp hw
      have hil : i < l.length := by rw [← hwslen]; exact hiw
      obtain ⟨r, hr, hra⟩ := hrank i hil
      have hgd : (computeItemWedges l none).getD i ⟨0, 0⟩ = w := by
        rw [List.getD_eq_getElem _ _ hiw]
        exact hget
      rw [← hgd, computeItemWedges_none_getD_bound l hn2 hsorts hranges i hil r hr hra]
      exact hmono r (by omega)
    · intro x hx0 hx1
      obtain ⟨q, k, hk, hqe, hq0, hq1⟩ : ∃ q k : ℚ, (k = 0 ∨ k = 360 ∨ k = -360) ∧
          q = x + k ∧ wedgeBound s 0 < q ∧ q ≤ wedgeBound s s.length := by
        rw [wedgeBound_zero, wedgeBound_top _ hsn2]
        by_cases hc1 : x ≤ midAngles s (s.length - 1) - 360
        · exact ⟨x + 360, 360, Or.inr (Or.inl rfl), rfl,
            by linarith [hW.2], by linarith⟩
        · by_cases hc2 : x ≤ midAngles s (s.length - 1)
          · exact ⟨x, 0, Or.inl rfl, by ring, by linarith, hc2⟩
          · exact ⟨x - 360, -360, Or.inr (Or.inr rfl), by ring,
              by linarith, by linarith [hW.1]⟩
      obtain ⟨r, hr, hb1, hb2⟩ :=
        exists_bracket s.length (wedgeBound s) q hmono hq0 hq1
      have hmem : s.getD r 0 ∈ l := hperm.mem_iff.mp (getD0_mem hr)
      obtain ⟨⟨i, hi⟩, hget⟩ := List.mem_iff_get.mp hmem
      have hgetD : s.getD r 0 = l.getD i 0 := by
        rw [List.getD_eq_getElem l 0 hi]
        exact hget.symm
      refine ⟨i, ⟨by rw [hwslen]; exact hi, ?_⟩, ?_⟩
      · rw [computeItemWedges_none_getD_bound l hn2 hsorts hranges i hi r hr hgetD]
        exact wedgeContains_of_shift hk (by rw [← hqe]; exact hb1)
          (by rw [← hqe]; exact hb2)
      · rintro y ⟨hy, hcy⟩
        have hcx : wedgeContains ((computeItemWedges l none).getD i ⟨0, 0⟩) x := by
          rw [computeItemWedges_none_getD_bound l hn2 hsorts hranges i hi r hr hgetD]
          exact wedgeContains_of_shift hk (by rw [← hqe]; exact hb1)
            (by rw [← hqe]; exact hb2)
        exact huniq x y i (by rw [← hwslen]; exact hy) hi hcy hcx
    · intro x hx0 hx1 i j hi hj hci hcj
      exact huniq x i j (by rw [← hwslen]; exact hi) (by rw [← hwslen]; exact hj)
        (wedgeContainsStrict_imp hci) (wedgeContainsStrict_imp hcj)

/-- Witness for C3 (amended): a concrete four-item menu with no parent
satisfies all hypotheses, and every produced wedge has `start < end`. -/
theorem c3_wedge_partition_witness :
    ([0, 90, 180, 270] : List ℚ) ≠ [] ∧
    ([0, 90, 180, 270] : List ℚ).Pairwise (· ≠ ·) ∧
    (∀ a ∈ ([0, 90, 180, 270] : List ℚ), 0 ≤ a ∧ a < 360) ∧
    (∀ w ∈ computeItemWedges [0, 90, 180, 270] none, w.start < w.«end») :=
  ⟨by decide, by decide, by decide,
    (c3_wedge_partition [0, 90, 180, 270] (by decide) (by decide) (by decide)).1⟩
